import Mathlib

/-!
Verification development for the `compgraph` library: a shallow embedding of
the row model and of the operators `Map`, `Reduce`, `Join` (with the joiner
strategies), the concrete reducers `Count`, `TopN`, `TermFrequency`, the
mappers `Split`, `FilterPunctuation`, `LowerCase`, and the graph runner.

Rows in the source are Python `dict[str, Any]` objects: insertion-ordered
finite maps from strings to dynamically typed values.  We embed a row as an
association list `List (String × Val)` in insertion order, with `Row.insert`
implementing Python dict assignment (update in place when the key exists,
append otherwise).  Values are embedded by the inductive `Val`: integers,
rationals (modelling Python float results of `/` exactly) and strings.
Python raises `KeyError` on a missing key; total lookups (`Row.get`) use a
default that is never exercised because every theorem hypothesises the keys
it reads to be present, while `Row.find?` keeps the partiality explicit.
-/

namespace CompGraph

inductive Val where
  | i (n : Int)
  | q (x : ℚ)
  | s (t : String)
deriving DecidableEq, Repr

/-- Order on values, used for join-key comparison and `TopN`.  Python compares
values of one type; a run-time `TypeError` on mixed types never arises in the
claims, so the encoding's arbitrary order between constructors is harmless. -/
def Val.encode : Val → (Int ⊕ₗ ℚ) ⊕ₗ String
  | .i n => toLex (Sum.inl (toLex (Sum.inl n)))
  | .q x => toLex (Sum.inl (toLex (Sum.inr x)))
  | .s t => toLex (Sum.inr t)

theorem Val.encode_injective : Function.Injective Val.encode := by
  intro a b h
  cases a <;> cases b <;> simp [Val.encode, toLex] at h <;> simp [h]

instance : LinearOrder Val := LinearOrder.lift' Val.encode Val.encode_injective

/-- A row: Python `dict[str, Any]` as an insertion-ordered association list. -/
abbrev Row := List (String × Val)

/-- First binding of key `k`, i.e. Python `row.get(k)` as an option. -/
def Row.find? (r : Row) (k : String) : Option Val :=
  match r with
  | [] => none
  | (k', v) :: rest => if k' = k then some v else Row.find? rest k

/-- Python `k in row`. -/
def Row.hasKey (r : Row) (k : String) : Bool :=
  match r with
  | [] => false
  | (k', _) :: rest => k' = k || Row.hasKey rest k

/-- Total lookup `row[k]`; Python raises `KeyError` when `k` is absent, and
every theorem reading a key hypothesises its presence, so the default value
is never exercised. -/
def Row.get (r : Row) (k : String) : Val :=
  (r.find? k).getD (Val.i 0)

/-- Python dict assignment `row[k] = v`: update in place when `k` exists
(keeping its position), append at the end otherwise. -/
def Row.insert (r : Row) (k : String) (v : Val) : Row :=
  match r with
  | [] => [(k, v)]
  | (k', v') :: rest => if k' = k then (k', v) :: rest else (k', v') :: Row.insert rest k v

/-- Python dict comprehension `{k: src[k] for k in ks}` (over a base `r`). -/
def Row.insertAll (r : Row) (ks : List String) (src : Row) : Row :=
  ks.foldl (fun acc k => acc.insert k (src.get k)) r

theorem Row.find?_insert_self (r : Row) (k : String) (v : Val) :
    (r.insert k v).find? k = some v := by
  induction r with
  | nil => simp [Row.insert, Row.find?]
  | cons p rest ih =>
    by_cases h : p.1 = k <;> simp [Row.insert, Row.find?, h, ih]

theorem Row.find?_insert_other (r : Row) (k k' : String) (v : Val) (h : k ≠ k') :
    (r.insert k v).find? k' = r.find? k' := by
  induction r with
  | nil => simp [Row.insert, Row.find?, h]
  | cons p rest ih =>
    by_cases hp : p.1 = k
    · have hne : p.1 ≠ k' := by rw [hp]; exact h
      simp [Row.insert, Row.find?, hp, hne, h]
    · by_cases hp' : p.1 = k'
      · simp only [Row.insert, if_neg hp, Row.find?, if_pos hp']
      · simp [Row.insert, Row.find?, hp, hp', ih]

theorem Row.get_insert_self (r : Row) (k : String) (v : Val) :
    (r.insert k v).get k = v := by
  simp [Row.get, Row.find?_insert_self]

theorem Row.get_insert_other (r : Row) (k k' : String) (v : Val) (h : k ≠ k') :
    (r.insert k v).get k' = r.get k' := by
  simp [Row.get, Row.find?_insert_other r k k' v h]

theorem Row.hasKey_iff_find? (r : Row) (k : String) :
    r.hasKey k = true ↔ ∃ v, r.find? k = some v := by
  induction r with
  | nil => simp [Row.hasKey, Row.find?]
  | cons p rest ih =>
    by_cases h : p.1 = k <;> simp [Row.hasKey, Row.find?, h, ih]

/-- Inserting a fresh key appends it at the end, as in Python. -/
theorem Row.insert_fresh (r : Row) (k : String) (v : Val) (h : r.hasKey k = false) :
    r.insert k v = r ++ [(k, v)] := by
  induction r with
  | nil => simp [Row.insert]
  | cons p rest ih =>
    simp [Row.hasKey, Bool.or_eq_false_iff] at h
    simp [Row.insert, h.1, ih h.2]

/-! ### itertools.groupby

`Reduce.__call__` and `Join.__call__` both rely on `itertools.groupby`, which
partitions a stream into maximal contiguous runs of elements with equal key
and yields `(key, run)` pairs in order. -/

/-- `itertools.groupby(l, key = f)` as a list of `(key, run)` pairs. -/
def pyGroupby {α κ : Type} [DecidableEq κ] (f : α → κ) : List α → List (κ × List α)
  | [] => []
  | x :: xs =>
    (f x, x :: xs.takeWhile (fun y => decide (f y = f x))) ::
      pyGroupby f (xs.dropWhile (fun y => decide (f y = f x)))
termination_by l => l.length
decreasing_by
  exact Nat.lt_succ_of_le (List.dropWhile_suffix _).sublist.length_le

theorem pyGroupby_nil {α κ : Type} [DecidableEq κ] (f : α → κ) : pyGroupby f [] = [] := by
  simp [pyGroupby]

theorem pyGroupby_cons {α κ : Type} [DecidableEq κ] (f : α → κ) (x : α) (xs : List α) :
    pyGroupby f (x :: xs) =
      (f x, x :: xs.takeWhile (fun y => decide (f y = f x))) ::
        pyGroupby f (xs.dropWhile (fun y => decide (f y = f x))) := by
  simp [pyGroupby]

/-- The runs produced by `groupby` concatenate back to the input stream. -/
theorem pyGroupby_join {α κ : Type} [DecidableEq κ] (f : α → κ) (l : List α) :
    ((pyGroupby f l).map Prod.snd).flatten = l := by
  induction l using pyGroupby.induct f with
  | case1 => simp [pyGroupby]
  | case2 x xs ih =>
    rw [pyGroupby_cons]
    simp only [List.map_cons, List.flatten_cons, ih, List.cons_append,
      List.takeWhile_append_dropWhile]

/-- Every run produced by `groupby` is non-empty. -/
theorem pyGroupby_ne_nil {α κ : Type} [DecidableEq κ] (f : α → κ) (l : List α) :
    ∀ g ∈ pyGroupby f l, g.2 ≠ [] := by
  induction l using pyGroupby.induct f with
  | case1 => simp [pyGroupby]
  | case2 x xs ih =>
    rw [pyGroupby_cons]
    intro g hg
    rcases List.mem_cons.mp hg with rfl | hg
    · simp
    · exact ih g hg

/-- Every element of a run has the run's key. -/
theorem pyGroupby_key {α κ : Type} [DecidableEq κ] (f : α → κ) (l : List α) :
    ∀ g ∈ pyGroupby f l, ∀ a ∈ g.2, f a = g.1 := by
  induction l using pyGroupby.induct f with
  | case1 => simp [pyGroupby]
  | case2 x xs ih =>
    rw [pyGroupby_cons]
    intro g hg a ha
    rcases List.mem_cons.mp hg with rfl | hg
    · rcases List.mem_cons.mp ha with rfl | ha
      · rfl
      · simpa using List.mem_takeWhile_imp ha
    · exact ih g hg a ha

/-- Adjacent runs have different keys (runs are maximal). -/
theorem pyGroupby_chain_ne {α κ : Type} [DecidableEq κ] (f : α → κ) (l : List α) :
    List.Chain' (fun g h => g.1 ≠ h.1) (pyGroupby f l) := by
  induction l using pyGroupby.induct f with
  | case1 => simp [pyGroupby]
  | case2 x xs ih =>
    rw [pyGroupby_cons]
    refine List.chain'_cons'.mpr ⟨?_, ih⟩
    intro g hg
    rcases hrest : xs.dropWhile (fun y => decide (f y = f x)) with _ | ⟨y, ys⟩
    · rw [hrest, pyGroupby_nil] at hg; simp at hg
    · rw [hrest, pyGroupby_cons] at hg
      rw [List.head?_cons, Option.mem_def, Option.some.injEq] at hg
      have hy : ¬ (f y = f x) := by
        have h0 : 0 < (xs.dropWhile (fun y => decide (f y = f x))).length := by
          rw [hrest]; simp
        have := xs.dropWhile_get_zero_not (p := fun y => decide (f y = f x)) h0
        simpa [hrest] using this
      rw [← hg]
      simpa using fun h => hy h.symm

theorem le_head_dropWhile {α κ : Type} [DecidableEq κ] [LinearOrder κ] (f : α → κ) :
    ∀ (x : α) (xs : List α), List.Chain' (fun a b => f a ≤ f b) (x :: xs) →
      ∀ y ∈ (xs.dropWhile (fun b => decide (f b = f x))).head?, f x ≤ f y := by
  intro x xs
  induction xs generalizing x with
  | nil => intro _ y hy; simp at hy
  | cons z zs ih =>
    intro hchain y hy
    by_cases hz : f z = f x
    · have hpred : (fun b => decide (f b = f x)) = (fun b => decide (f b = f z)) := by
        funext b; simp [hz]
      rw [hpred] at hy
      have hdw : (z :: zs).dropWhile (fun b => decide (f b = f z)) =
          zs.dropWhile (fun b => decide (f b = f z)) := by
        simp [List.dropWhile_cons]
      rw [hdw] at hy
      exact hz ▸ ih z (List.chain'_cons.mp hchain).2 y hy
    · have hdw : (z :: zs).dropWhile (fun b => decide (f b = f x)) = z :: zs := by
        simp [List.dropWhile_cons, hz]
      rw [hdw] at hy
      rw [List.head?_cons, Option.mem_def, Option.some.injEq] at hy
      rw [← hy]
      exact (List.chain'_cons.mp hchain).1

/-- For a stream sorted by the key, `groupby` yields strictly increasing keys. -/
theorem pyGroupby_sorted_strict {α κ : Type} [DecidableEq κ] [LinearOrder κ] (f : α → κ)
    (l : List α) (h : List.Chain' (fun a b => f a ≤ f b) l) :
    List.Chain' (· < ·) ((pyGroupby f l).map Prod.fst) := by
  induction l using pyGroupby.induct f with
  | case1 => simp [pyGroupby]
  | case2 x xs ih =>
    rw [pyGroupby_cons]
    have hsuf : xs.dropWhile (fun y => decide (f y = f x)) <:+ x :: xs :=
      (List.dropWhile_suffix _).trans (List.suffix_cons x xs)
    have hrest : List.Chain' (fun a b => f a ≤ f b) (xs.dropWhile (fun y => decide (f y = f x))) :=
      h.suffix hsuf
    rw [List.map_cons]
    refine List.chain'_cons'.mpr ⟨?_, ih hrest⟩
    intro k hk
    rcases hrest2 : xs.dropWhile (fun y => decide (f y = f x)) with _ | ⟨y, ys⟩
    · rw [hrest2, pyGroupby_nil] at hk; simp at hk
    · rw [hrest2, pyGroupby_cons] at hk
      rw [List.map_cons, List.head?_cons, Option.mem_def, Option.some.injEq] at hk
      have hle : f x ≤ f y := by
        refine le_head_dropWhile f x xs h y ?_
        rw [hrest2]; rfl
      have hne : ¬ (f y = f x) := by
        have h0 : 0 < (xs.dropWhile (fun y => decide (f y = f x))).length := by
          rw [hrest2]; simp
        have := xs.dropWhile_get_zero_not (p := fun y => decide (f y = f x)) h0
        simpa [hrest2] using this
      rw [← hk]
      exact lt_of_le_of_ne hle (fun hxy => hne hxy.symm)

/-- The keys yielded by `groupby` are exactly the keys occurring in the stream. -/
theorem pyGroupby_keys_mem {α κ : Type} [DecidableEq κ] (f : α → κ) (l : List α) (k : κ) :
    k ∈ (pyGroupby f l).map Prod.fst ↔ k ∈ l.map f := by
  induction l using pyGroupby.induct f with
  | case1 => simp [pyGroupby]
  | case2 x xs ih =>
    rw [pyGroupby_cons]
    simp only [List.map_cons, List.mem_cons]
    constructor
    · rintro (rfl | hk)
      · exact Or.inl rfl
      · right
        have hmem : k ∈ (xs.dropWhile (fun y => decide (f y = f x))).map f := ih.mp hk
        have hsub : List.Sublist ((xs.dropWhile (fun y => decide (f y = f x))).map f)
            (xs.map f) :=
          List.Sublist.map f (List.IsSuffix.sublist (List.dropWhile_suffix _))
        exact hsub.subset hmem
    · rintro (rfl | hk)
      · exact Or.inl rfl
      · conv at hk => rw [← xs.takeWhile_append_dropWhile (p := fun y => decide (f y = f x))]
        rw [List.map_append, List.mem_append] at hk
        rcases hk with hk | hk
        · left
          obtain ⟨a, ha, rfl⟩ := List.mem_map.mp hk
          simpa using List.mem_takeWhile_imp ha
        · exact Or.inr (ih.mpr hk)

/-- Filtering whole groups by a predicate on their key and flattening equals
filtering the stream rowwise by the predicate on the row's key. -/
theorem pyGroupby_filter_flatten {α κ : Type} [DecidableEq κ] (f : α → κ) (P : κ → Bool)
    (l : List α) :
    ((((pyGroupby f l).filter (fun g => P g.1)).map Prod.snd).flatten) =
      l.filter (fun a => P (f a)) := by
  induction l using pyGroupby.induct f with
  | case1 => simp [pyGroupby]
  | case2 x xs ih =>
    rw [pyGroupby_cons]
    have htake : ∀ a ∈ xs.takeWhile (fun y => decide (f y = f x)), f a = f x := by
      intro a ha; simpa using List.mem_takeWhile_imp ha
    by_cases hP : P (f x)
    · have htf : (xs.takeWhile (fun y => decide (f y = f x))).filter (fun a => P (f a)) =
          xs.takeWhile (fun y => decide (f y = f x)) := by
        apply List.filter_eq_self.mpr
        intro a ha; simpa [htake a ha] using hP
      simp [List.filter_cons, List.filter_append, hP, ih, htf]
      conv_rhs => rw [← xs.takeWhile_append_dropWhile (p := fun y => decide (f y = f x))]
      rw [List.filter_append, htf]
    · have htf : (xs.takeWhile (fun y => decide (f y = f x))).filter (fun a => P (f a)) = [] := by
        apply List.filter_eq_nil_iff.mpr
        intro a ha; simpa [htake a ha] using hP
      simp [List.filter_cons, List.filter_append, hP, ih, htf]
      conv_rhs => rw [← xs.takeWhile_append_dropWhile (p := fun y => decide (f y = f x))]
      rw [List.filter_append, htf]
      simp

/-! ### Association-list representation lemmas

Tools to reason about rows built by successive Python dict assignments of
fresh keys: such a build is literally an append of `(key, value)` pairs. -/

/-- The key list of a row (Python `row.keys()`, in insertion order). -/
def Row.keyList (r : Row) : List String := r.map Prod.fst

theorem Row.hasKey_iff_mem (r : Row) (k : String) : r.hasKey k = true ↔ k ∈ r.keyList := by
  induction r with
  | nil => simp [Row.hasKey, Row.keyList]
  | cons p rest ih =>
    by_cases h : p.1 = k
    · simp [Row.hasKey, Row.keyList, h]
    · have h' : ¬ (k = p.1) := fun he => h he.symm
      simp only [Row.keyList] at ih
      simp [Row.hasKey, Row.keyList, h, h', ih]

theorem Row.hasKey_append (r s : Row) (k : String) :
    (r ++ s : Row).hasKey k = (r.hasKey k || s.hasKey k) := by
  induction r with
  | nil => simp [Row.hasKey]
  | cons p rest ih =>
    by_cases h : p.1 = k <;> simp [Row.hasKey, h, ih]

theorem Row.find?_append_right (r s : Row) (k : String) (h : r.hasKey k = false) :
    (r ++ s : Row).find? k = s.find? k := by
  induction r with
  | nil => simp
  | cons p rest ih =>
    simp only [Row.hasKey, Bool.or_eq_false_iff, decide_eq_false_iff_not] at h
    simp only [List.cons_append, Row.find?, if_neg h.1]
    exact ih h.2

/-- Folding Python dict assignments over a row. -/
def Row.insertPairs (r : Row) (ps : List (String × Val)) : Row :=
  ps.foldl (fun acc p => acc.insert p.1 p.2) r

theorem Row.insertPairs_append (r : Row) (ps qs : List (String × Val)) :
    r.insertPairs (ps ++ qs) = (r.insertPairs ps).insertPairs qs := by
  simp [Row.insertPairs, List.foldl_append]

/-- Assigning pairwise-distinct fresh keys appends them in order. -/
theorem Row.insertPairs_eq_append (r : Row) (ps : List (String × Val))
    (hfresh : ∀ p ∈ ps, r.hasKey p.1 = false) (hnd : (ps.map Prod.fst).Nodup) :
    r.insertPairs ps = r ++ ps := by
  induction ps generalizing r with
  | nil => simp [Row.insertPairs]
  | cons p rest ih =>
    have hp : r.hasKey p.1 = false := hfresh p (List.mem_cons_self p rest)
    have hstep : r.insert p.1 p.2 = r ++ [p] := by
      have := Row.insert_fresh r p.1 p.2 hp
      simpa using this
    simp only [Row.insertPairs, List.foldl_cons] at *
    rw [hstep]
    have hfresh' : ∀ q ∈ rest, (r ++ [p] : Row).hasKey q.1 = false := by
      intro q hq
      rw [Row.hasKey_append]
      have h1 : r.hasKey q.1 = false := hfresh q (List.mem_cons_of_mem p hq)
      have h2 : q.1 ≠ p.1 := by
        intro he
        have := (List.nodup_cons.mp hnd).1
        exact this (he ▸ List.mem_map_of_mem Prod.fst hq)
      have h3 : (Row.hasKey [p] q.1) = false := by
        simp [Row.hasKey, h2]
        intro hc; exact h2 hc.symm
      simp [h1, h3]
    have hrec := ih (r ++ [p]) hfresh' (List.nodup_cons.mp hnd).2
    simp only [Row.insertPairs] at hrec
    rw [hrec]
    simp

/-- A fold of per-key assignments is an `insertPairs` of the flattened pairs. -/
theorem foldl_insertPairs (g : String → List (String × Val)) (l : List String) (r : Row) :
    l.foldl (fun acc k => acc.insertPairs (g k)) r = r.insertPairs (l.flatMap g) := by
  induction l generalizing r with
  | nil => simp [Row.insertPairs]
  | cons k rest ih =>
    simp only [List.foldl_cons, List.flatMap_cons, ih, Row.insertPairs_append]

/-- In a row with pairwise-distinct keys, `find?` returns any member binding. -/
theorem Row.find?_of_mem_nodup (r : Row) (hnd : r.keyList.Nodup) (k : String) (v : Val)
    (h : (k, v) ∈ r) : r.find? k = some v := by
  induction r with
  | nil => simp at h
  | cons p rest ih =>
    rcases List.mem_cons.mp h with rfl | h
    · simp [Row.find?]
    · have hne : p.1 ≠ k := by
        intro he
        have := (List.nodup_cons.mp hnd).1
        exact this (he ▸ List.mem_map_of_mem Prod.fst h)
      simp only [Row.find?, if_neg hne]
      exact ih (List.nodup_cons.mp hnd).2 h

/-! ### Joiners (`operations/base.py` `Joiner.prod_tables`, `operations/join.py`)

Python iterates the sets `common`, `set(a) - inter`, `set(b) - inter` in an
unspecified hash order; we iterate them in the owning dict's key order.  The
properties proved below are insertion-order independent, so this choice is
immaterial. -/

/-- `inter - set(keys)`: non-key columns present in both rows. -/
def commonCols (keys : List String) (a b : Row) : List String :=
  a.keyList.filter (fun k => b.hasKey k && !(keys.contains k))

/-- `set(a.keys()) - inter`: columns of `a` absent from `b`. -/
def onlyCols (a b : Row) : List String :=
  a.keyList.filter (fun k => !(b.hasKey k))

/-- One row of the inner cartesian product (`Joiner.prod_tables` loop body):
key columns from `a`, shared non-key columns suffixed, one-sided columns
verbatim. -/
def prodRow (sa sb : String) (keys : List String) (a b : Row) : Row :=
  let row0 : Row := keys.foldl (fun r k => r.insert k (a.get k)) []
  let row1 := (commonCols keys a b).foldl
    (fun r k => (r.insert (k ++ sa) (a.get k)).insert (k ++ sb) (b.get k)) row0
  let row2 := (onlyCols a b).foldl (fun r k => r.insert k (a.get k)) row1
  (onlyCols b a).foldl (fun r k => r.insert k (b.get k)) row2

/-- `Joiner.prod_tables`: the cartesian product of two matched groups (empty
when the right group is empty, per the early `return`). -/
def prodTables (sa sb : String) (keys : List String) (ra rb : List Row) : List Row :=
  if rb = [] then []
  else ra.flatMap (fun a => rb.map (fun b => prodRow sa sb keys a b))

/-- `InnerJoiner.__call__`: only the cartesian product. -/
def innerJoiner (sa sb : String) (keys : List String) (ra rb : List Row) : List Row :=
  prodTables sa sb keys ra rb

/-- `OuterJoiner.__call__`: the product, then the rows of whichever side is
unmatched, verbatim. -/
def outerJoiner (sa sb : String) (keys : List String) (ra rb : List Row) : List Row :=
  prodTables sa sb keys ra rb ++ (if ra = [] then rb else []) ++ (if rb = [] then ra else [])

/-- `LeftJoiner.__call__`. -/
def leftJoiner (sa sb : String) (keys : List String) (ra rb : List Row) : List Row :=
  prodTables sa sb keys ra rb ++ (if rb = [] then ra else [])

/-- `RightJoiner.__call__`. -/
def rightJoiner (sa sb : String) (keys : List String) (ra rb : List Row) : List Row :=
  prodTables sa sb keys ra rb ++ (if ra = [] then rb else [])

/-- The column names of a `prodRow`, in insertion order. -/
def prodNames (sa sb : String) (keys : List String) (a b : Row) : List String :=
  keys ++ (commonCols keys a b).flatMap (fun k => [k ++ sa, k ++ sb]) ++
    onlyCols a b ++ onlyCols b a

/-- When all produced column names are distinct, `prodRow` is literally the
association list of its four segments. -/
theorem prodRow_eq_pairs (sa sb : String) (keys : List String) (a b : Row)
    (hnd : (prodNames sa sb keys a b).Nodup) :
    prodRow sa sb keys a b =
      keys.map (fun k => (k, a.get k)) ++
      (commonCols keys a b).flatMap (fun k => [(k ++ sa, a.get k), (k ++ sb, b.get k)]) ++
      (onlyCols a b).map (fun k => (k, a.get k)) ++
      (onlyCols b a).map (fun k => (k, b.get k)) := by
  have h1 : ∀ (r : Row), keys.foldl (fun r k => r.insert k (a.get k)) r =
      r.insertPairs (keys.flatMap (fun k => [(k, a.get k)])) := by
    intro r; exact foldl_insertPairs (fun k => [(k, a.get k)]) keys r
  have h2 : ∀ (r : Row), (commonCols keys a b).foldl
      (fun r k => (r.insert (k ++ sa) (a.get k)).insert (k ++ sb) (b.get k)) r =
      r.insertPairs ((commonCols keys a b).flatMap
        (fun k => [(k ++ sa, a.get k), (k ++ sb, b.get k)])) := by
    intro r
    exact foldl_insertPairs (fun k => [(k ++ sa, a.get k), (k ++ sb, b.get k)]) _ r
  have h3 : ∀ (r : Row), (onlyCols a b).foldl (fun r k => r.insert k (a.get k)) r =
      r.insertPairs ((onlyCols a b).flatMap (fun k => [(k, a.get k)])) := by
    intro r; exact foldl_insertPairs (fun k => [(k, a.get k)]) _ r
  have h4 : ∀ (r : Row), (onlyCols b a).foldl (fun r k => r.insert k (b.get k)) r =
      r.insertPairs ((onlyCols b a).flatMap (fun k => [(k, b.get k)])) := by
    intro r; exact foldl_insertPairs (fun k => [(k, b.get k)]) _ r
  rw [prodRow]
  simp only [h1, h2, h3, h4, ← Row.insertPairs_append]
  have hmap : ∀ (l : List String) (v : String → Val),
      l.flatMap (fun k => [(k, v k)]) = l.map (fun k => (k, v k)) := by
    intro l v; induction l with
    | nil => rfl
    | cons x xs ih => simp [ih]
  have hnames : ((keys.flatMap (fun k => [(k, a.get k)]) ++
      (commonCols keys a b).flatMap (fun k => [(k ++ sa, a.get k), (k ++ sb, b.get k)]) ++
      (onlyCols a b).flatMap (fun k => [(k, a.get k)]) ++
      (onlyCols b a).flatMap (fun k => [(k, b.get k)])).map Prod.fst) =
      prodNames sa sb keys a b := by
    have hsingle : ∀ (l : List String), l.flatMap (fun k => ([k] : List String)) = l := by
      intro l; induction l with
      | nil => rfl
      | cons x xs ih => simp [ih]
    simp [prodNames, List.map_append, List.map_flatMap, hsingle]
  rw [Row.insertPairs_eq_append]
  · simp [hmap]
  · intro p _; simp [Row.hasKey]
  · rw [hnames]; exact hnd

/-- The key list of a `prodRow` is `prodNames` (assuming all names distinct). -/
theorem prodRow_keyList (sa sb : String) (keys : List String) (a b : Row)
    (hnd : (prodNames sa sb keys a b).Nodup) :
    (prodRow sa sb keys a b).keyList = prodNames sa sb keys a b := by
  rw [Row.keyList, prodRow_eq_pairs sa sb keys a b hnd]
  have hsingle : ∀ (l : List String), l.flatMap (fun k => ([k] : List String)) = l := by
    intro l; induction l with
    | nil => rfl
    | cons x xs ih => simp [ih]
  have hfst : ∀ (l : List String) (v : String → Val),
      l.map (Prod.fst ∘ fun k => (k, v k)) = l := by
    intro l v
    induction l with
    | nil => rfl
    | cons x xs ih => simpa [Function.comp] using ih
  simp [prodNames, List.map_append, List.map_flatMap, hsingle, hfst]

/-- **C1.** For a matched pair `(a, b)` whose key columns agree, `prod_tables`
emits one row per pair (the `InnerJoiner` output is exactly the cartesian
product of the two groups), and that row maps each join key to the shared key
value, each non-key column present in both rows to the two suffixed entries,
and each one-sided column to its value verbatim.  The freshness hypothesis
`hnd` records that the produced column names do not collide, which the claim
presupposes by speaking of separate entries. -/
theorem prod_tables_inner_spec (sa sb : String) (keys : List String) (a b : Row)
    (ga gb : List Row)
    (hk : ∀ k ∈ keys, a.hasKey k = true ∧ b.hasKey k = true ∧ a.get k = b.get k)
    (hnd : (prodNames sa sb keys a b).Nodup) :
    innerJoiner sa sb keys ga gb =
        ga.flatMap (fun x => gb.map (fun y => prodRow sa sb keys x y)) ∧
    (∀ k ∈ keys, (prodRow sa sb keys a b).get k = a.get k ∧
        (prodRow sa sb keys a b).get k = b.get k) ∧
    (∀ k, a.hasKey k = true → b.hasKey k = true → k ∉ keys →
        (prodRow sa sb keys a b).get (k ++ sa) = a.get k ∧
        (prodRow sa sb keys a b).get (k ++ sb) = b.get k) ∧
    (∀ k, a.hasKey k = true → b.hasKey k = false →
        (prodRow sa sb keys a b).get k = a.get k) ∧
    (∀ k, b.hasKey k = true → a.hasKey k = false →
        (prodRow sa sb keys a b).get k = b.get k) := by
  have hndrow : (prodRow sa sb keys a b).keyList.Nodup := by
    rw [prodRow_keyList sa sb keys a b hnd]; exact hnd
  have lookup : ∀ k v, (k, v) ∈ prodRow sa sb keys a b →
      (prodRow sa sb keys a b).get k = v := by
    intro k v hmem
    rw [Row.get, Row.find?_of_mem_nodup _ hndrow k v hmem]
    rfl
  refine ⟨?_, ?_, ?_, ?_, ?_⟩
  · rw [innerJoiner, prodTables]
    by_cases hgb : gb = []
    · simp [hgb]
    · rw [if_neg hgb]
  · intro k hkmem
    have hmem : (k, a.get k) ∈ prodRow sa sb keys a b := by
      rw [prodRow_eq_pairs sa sb keys a b hnd]
      simp only [List.mem_append, List.mem_map, List.mem_flatMap]
      exact Or.inl (Or.inl (Or.inl ⟨k, hkmem, rfl⟩))
    exact ⟨lookup k (a.get k) hmem, by rw [lookup k (a.get k) hmem, (hk k hkmem).2.2]⟩
  · intro k hA hB hknot
    have hc : k ∈ commonCols keys a b := by
      rw [commonCols, List.mem_filter]
      refine ⟨(Row.hasKey_iff_mem a k).mp hA, ?_⟩
      simp only [hB, Bool.true_and, Bool.not_eq_true']
      simpa using hknot
    constructor
    · refine lookup (k ++ sa) (a.get k) ?_
      rw [prodRow_eq_pairs sa sb keys a b hnd]
      simp only [List.mem_append, List.mem_flatMap]
      exact Or.inl (Or.inl (Or.inr ⟨k, hc, by simp⟩))
    · refine lookup (k ++ sb) (b.get k) ?_
      rw [prodRow_eq_pairs sa sb keys a b hnd]
      simp only [List.mem_append, List.mem_flatMap]
      exact Or.inl (Or.inl (Or.inr ⟨k, hc, by simp⟩))
  · intro k hA hB
    refine lookup k (a.get k) ?_
    rw [prodRow_eq_pairs sa sb keys a b hnd]
    simp only [List.mem_append, List.mem_map]
    refine Or.inl (Or.inr ⟨k, ?_, rfl⟩)
    rw [onlyCols, List.mem_filter]
    exact ⟨(Row.hasKey_iff_mem a k).mp hA, by simp [hB]⟩
  · intro k hB hA
    refine lookup k (b.get k) ?_
    rw [prodRow_eq_pairs sa sb keys a b hnd]
    simp only [List.mem_append, List.mem_map]
    refine Or.inr ⟨k, ?_, rfl⟩
    rw [onlyCols, List.mem_filter]
    exact ⟨(Row.hasKey_iff_mem b k).mp hB, by simp [hA]⟩

/-- Concrete left row for the join witnesses. -/
def rowA1 : Row := [("k", Val.i 1), ("v", Val.s "a"), ("x", Val.i 5)]

/-- Concrete right row for the join witnesses. -/
def rowB1 : Row := [("k", Val.i 1), ("w", Val.i 10), ("x", Val.i 7)]

theorem prod_tables_inner_spec_witness :
    innerJoiner "_1" "_2" ["k"] [rowA1] [rowB1] =
        [rowA1].flatMap (fun x => [rowB1].map (fun y => prodRow "_1" "_2" ["k"] x y)) ∧
    (∀ k ∈ ["k"], (prodRow "_1" "_2" ["k"] rowA1 rowB1).get k = rowA1.get k ∧
        (prodRow "_1" "_2" ["k"] rowA1 rowB1).get k = rowB1.get k) ∧
    (∀ k, rowA1.hasKey k = true → rowB1.hasKey k = true → k ∉ ["k"] →
        (prodRow "_1" "_2" ["k"] rowA1 rowB1).get (k ++ "_1") = rowA1.get k ∧
        (prodRow "_1" "_2" ["k"] rowA1 rowB1).get (k ++ "_2") = rowB1.get k) ∧
    (∀ k, rowA1.hasKey k = true → rowB1.hasKey k = false →
        (prodRow "_1" "_2" ["k"] rowA1 rowB1).get k = rowA1.get k) ∧
    (∀ k, rowB1.hasKey k = true → rowA1.hasKey k = false →
        (prodRow "_1" "_2" ["k"] rowA1 rowB1).get k = rowB1.get k) :=
  prod_tables_inner_spec "_1" "_2" ["k"] rowA1 rowB1 [rowA1] [rowB1]
    (by decide) (by decide)

/-! ### Reduce (`operations/base.py` `Reduce.__call__`, `safe_itemgetter`) -/

/-- `safe_itemgetter(keys)` applied to a row: the tuple of values at `keys`
(`[]` when `keys` is empty).  Lookup is kept partial (`Option`): Python raises
`KeyError` on a missing key, and rows missing a key never group together with
rows holding one. -/
def rkeyFn (keys : List String) (r : Row) : List (Option Val) :=
  keys.map r.find?

/-- `Reduce.__call__`: group the stream by `safe_itemgetter(keys)` with
`itertools.groupby` and concatenate the reducer's output on each run. -/
def reduceRun (reducer : List String → List Row → List Row) (keys : List String)
    (rows : List Row) : List Row :=
  ((pyGroupby (rkeyFn keys) rows).map (fun g => reducer keys g.2)).flatten

/-- **C2.** `Reduce` partitions its input into maximal contiguous runs of rows
with equal key tuples, invokes the reducer once per run in order, and yields
the concatenation of the outputs; with empty `group_keys` a non-empty stream
is a single group. -/
theorem reduce_partition_spec (reducer : List String → List Row → List Row)
    (keys : List String) (rows : List Row) :
    ((pyGroupby (rkeyFn keys) rows).map Prod.snd).flatten = rows ∧
    (∀ g ∈ pyGroupby (rkeyFn keys) rows, g.2 ≠ [] ∧ ∀ r ∈ g.2, rkeyFn keys r = g.1) ∧
    List.Chain' (fun g h => g.1 ≠ h.1) (pyGroupby (rkeyFn keys) rows) ∧
    reduceRun reducer keys rows =
      ((pyGroupby (rkeyFn keys) rows).map (fun g => reducer keys g.2)).flatten ∧
    (keys = [] → rows ≠ [] → pyGroupby (rkeyFn keys) rows = [([], rows)]) := by
  refine ⟨pyGroupby_join _ rows, ?_, pyGroupby_chain_ne _ rows, rfl, ?_⟩
  · intro g hg
    exact ⟨pyGroupby_ne_nil _ rows g hg, fun r hr => pyGroupby_key _ rows g hg r hr⟩
  · intro hkeys hrows
    subst hkeys
    match rows, hrows with
    | r :: rs, _ =>
      rw [pyGroupby_cons]
      have hpred : (fun y => decide (rkeyFn [] y = rkeyFn [] r)) = fun _ => true := by
        funext y; simp [rkeyFn]
      rw [hpred]
      have htake : rs.takeWhile (fun _ => true) = rs := by
        induction rs with
        | nil => rfl
        | cons z zs ih => simp [List.takeWhile_cons, ih]
      have hdrop : rs.dropWhile (fun _ => true) = [] := by
        induction rs with
        | nil => rfl
        | cons z zs ih => simp [List.dropWhile_cons, ih]
      rw [htake, hdrop, pyGroupby_nil]
      simp [rkeyFn]

theorem reduce_partition_spec_witness :
    ((pyGroupby (rkeyFn []) [rowA1, rowB1]).map Prod.snd).flatten = [rowA1, rowB1] ∧
    (∀ g ∈ pyGroupby (rkeyFn []) [rowA1, rowB1],
        g.2 ≠ [] ∧ ∀ r ∈ g.2, rkeyFn [] r = g.1) ∧
    List.Chain' (fun g h => g.1 ≠ h.1) (pyGroupby (rkeyFn []) [rowA1, rowB1]) ∧
    reduceRun (fun (_ : List String) (g : List Row) => g) [] [rowA1, rowB1] =
      ((pyGroupby (rkeyFn []) [rowA1, rowB1]).map (fun g => (fun (_ : List String) (g : List Row) => g) [] g.2)).flatten ∧
    (([] : List String) = [] → [rowA1, rowB1] ≠ [] →
        pyGroupby (rkeyFn []) [rowA1, rowB1] = [([], [rowA1, rowB1])]) :=
  reduce_partition_spec (fun (_ : List String) (g : List Row) => g) [] [rowA1, rowB1]

/-! ### Count (`operations/reduce.py`) -/

theorem Row.insert_ne_nil (r : Row) (k : String) (v : Val) : r.insert k v ≠ [] := by
  cases r with
  | nil => simp [Row.insert]
  | cons p rest =>
    by_cases h : p.1 = k <;> simp [Row.insert, h]

theorem Row.insert_insert_same (r : Row) (k : String) (v w : Val) :
    (r.insert k v).insert k w = r.insert k w := by
  induction r with
  | nil => simp [Row.insert]
  | cons p rest ih =>
    by_cases h : p.1 = k <;> simp [Row.insert, h, ih]

theorem Row.insert_of_find?_eq (r : Row) (k : String) (v : Val) (h : r.find? k = some v) :
    r.insert k v = r := by
  induction r with
  | nil => simp [Row.find?] at h
  | cons p rest ih =>
    by_cases hp : p.1 = k
    · rw [Row.find?, if_pos hp] at h
      have hv : p.2 = v := Option.some.inj h
      subst hp
      simp [Row.insert, ← hv]
    · rw [Row.find?, if_neg hp] at h
      simp [Row.insert, hp, ih h]

/-- `result_row[self.column] += 1` on the stored counter.  The counter is
always an `int`; Python would raise `TypeError` otherwise. -/
def valIncr : Val → Val
  | .i n => .i (n + 1)
  | .q x => .q (x + 1)
  | .s t => .s t

/-- The `Count.__call__` loop: initialise `result_row` from the first row
(group-key columns that exist in it, then the counter at 1), then bump the
counter once per further row. -/
def countLoop (col : String) (gk : List String) : List Row → Row → Row
  | [], acc => acc
  | r :: rs, acc =>
    if acc = [] then
      countLoop col gk rs
        (Row.insert ((gk.filter (fun k => r.hasKey k)).foldl
          (fun (m : Row) k => Row.insert m k (r.get k)) []) col (Val.i 1))
    else
      countLoop col gk rs (acc.insert col (valIncr (acc.get col)))

/-- `Count.__call__`: one output row per group. -/
def countReducer (col : String) (gk : List String) (rows : List Row) : List Row :=
  [countLoop col gk rows []]

theorem countLoop_run (col : String) (gk : List String) (rs : List Row) (acc : Row)
    (m : Int) (hne : acc ≠ []) (hcol : acc.find? col = some (Val.i m)) :
    countLoop col gk rs acc = acc.insert col (Val.i (m + rs.length)) := by
  induction rs generalizing acc m with
  | nil =>
    simp only [countLoop, List.length_nil, Nat.cast_zero, add_zero]
    exact (Row.insert_of_find?_eq acc col (Val.i m) hcol).symm
  | cons r rs ih =>
    rw [countLoop, if_neg hne]
    have hget : acc.get col = Val.i m := by simp [Row.get, hcol]
    rw [hget]
    have h1 : (acc.insert col (valIncr (Val.i m))).find? col = some (Val.i (m + 1)) := by
      simp [valIncr, Row.find?_insert_self]
    have hrec := ih (acc.insert col (valIncr (Val.i m))) (m + 1)
      (Row.insert_ne_nil acc col _) h1
    rw [hrec]
    simp only [valIncr]
    rw [Row.insert_insert_same]
    congr 1
    simp only [List.length_cons]
    push_cast
    ring_nf

/-- Closed form of `Count` on a non-empty group: the group-key columns present
in the first row, then the counter equal to the group size. -/
theorem countReducer_closed (col : String) (gk : List String) (r : Row) (rs : List Row) :
    countReducer col gk (r :: rs) =
      [Row.insert ((gk.filter (fun k => r.hasKey k)).foldl
        (fun (m : Row) k => Row.insert m k (r.get k)) []) col (Val.i (1 + rs.length))] := by
  rw [countReducer, countLoop, if_pos rfl]
  rw [countLoop_run col gk rs _ 1 (Row.insert_ne_nil _ col _) (Row.find?_insert_self _ col _)]
  rw [Row.insert_insert_same]

/-- The integer stored in a value (the counter column always holds an int). -/
def valToInt : Val → Int
  | .i n => n
  | .q _ => 0
  | .s _ => 0

instance : LinearOrder (Option Val) := inferInstanceAs (LinearOrder (WithBot Val))

theorem flatten_map_singleton {α β : Type} (l : List α) (f : α → β) :
    ((l.map (fun a => [f a])).flatten) = l.map f := by
  induction l with
  | nil => rfl
  | cons x xs ih => simp [ih]

theorem sum_map_intCast (l : List Nat) : (l.map (fun (n : Nat) => (n : Int))).sum = (l.sum : Int) := by
  induction l with
  | nil => rfl
  | cons x xs ih => simp only [List.map_cons, List.sum_cons, ih, Nat.cast_add]

/-- A strictly increasing list has no duplicates. -/
theorem chain_lt_nodup {κ : Type} [LinearOrder κ] (l : List κ)
    (h : List.Chain' (fun a b => a < b) l) : l.Nodup := by
  haveI : IsTrans κ (fun a b => a < b) := ⟨fun _ _ _ h1 h2 => lt_trans h1 h2⟩
  have hpw : l.Pairwise (fun a b => a < b) := List.chain'_iff_pairwise.mp h
  exact hpw.imp ne_of_lt

/-- **C4.** On a stream sorted by `K`, `Reduce` with `Count(col)` yields
exactly one row per distinct `K`-tuple occurring in the input (the group keys
are pairwise distinct and are exactly the occurring tuples), and the counts
sum to the number of input rows. -/
theorem reduce_count_spec (col : String) (K : List String) (rows : List Row)
    (hsort : List.Chain' (fun r s => rkeyFn K r ≤ rkeyFn K s) rows) :
    (reduceRun (countReducer col) K rows).length = (pyGroupby (rkeyFn K) rows).length ∧
    ((pyGroupby (rkeyFn K) rows).map Prod.fst).Nodup ∧
    (∀ t, t ∈ (pyGroupby (rkeyFn K) rows).map Prod.fst ↔ t ∈ rows.map (rkeyFn K)) ∧
    ((reduceRun (countReducer col) K rows).map (fun r => valToInt (r.get col))).sum =
      (rows.length : Int) := by
  have hout : reduceRun (countReducer col) K rows =
      (pyGroupby (rkeyFn K) rows).map (fun g => countLoop col K g.2 []) := by
    rw [reduceRun]
    have : (pyGroupby (rkeyFn K) rows).map (fun g => countReducer col K g.2) =
        (pyGroupby (rkeyFn K) rows).map (fun g => [countLoop col K g.2 []]) := by
      simp [countReducer]
    rw [this, flatten_map_singleton]
  refine ⟨?_, ?_, ?_, ?_⟩
  · rw [hout, List.length_map]
  · exact chain_lt_nodup _ (pyGroupby_sorted_strict (rkeyFn K) rows hsort)
  · exact fun t => pyGroupby_keys_mem (rkeyFn K) rows t
  · rw [hout, List.map_map]
    have hval : ∀ g ∈ pyGroupby (rkeyFn K) rows,
        valToInt ((countLoop col K g.2 []).get col) = ((g.2.length : Nat) : Int) := by
      intro g hg
      rcases hg2 : g.2 with _ | ⟨r, rs⟩
      · exact absurd hg2 (pyGroupby_ne_nil _ rows g hg)
      · have hclosed := countReducer_closed col K r rs
        rw [countReducer] at hclosed
        have heq : countLoop col K (r :: rs) [] =
            Row.insert ((K.filter (fun k => r.hasKey k)).foldl
              (fun (m : Row) k => Row.insert m k (r.get k)) []) col
              (Val.i (1 + rs.length)) :=
          List.head_eq_of_cons_eq hclosed
        rw [heq, Row.get_insert_self]
        simp only [valToInt, List.length_cons]
        push_cast
        ring_nf
    have hcomp : ∀ g ∈ pyGroupby (rkeyFn K) rows,
        ((fun r => valToInt (r.get col)) ∘ (fun g => countLoop col K g.2 [])) g =
          ((g.2.length : Nat) : Int) := by
      intro g hg
      simp only [Function.comp_apply]
      exact hval g hg
    rw [List.map_congr_left hcomp]
    have hmm : (pyGroupby (rkeyFn K) rows).map (fun g => ((g.2.length : Nat) : Int)) =
        ((pyGroupby (rkeyFn K) rows).map (fun g => g.2.length)).map (fun (n : Nat) => (n : Int)) := by
      rw [List.map_map]
      rfl
    rw [hmm, sum_map_intCast]
    have hlen : rows.length = ((pyGroupby (rkeyFn K) rows).map (fun g => g.2.length)).sum := by
      conv_lhs => rw [← pyGroupby_join (rkeyFn K) rows]
      rw [List.length_flatten, List.map_map]
      rfl
    rw [hlen]

/-- Concrete rows for the `Count` witness. -/
def rowC1 : Row := [("a", Val.i 1), ("b", Val.i 5)]

/-- Concrete rows for the `Count` witness. -/
def rowC2 : Row := [("a", Val.i 1), ("b", Val.i 6)]

/-- Concrete rows for the `Count` witness. -/
def rowC3 : Row := [("a", Val.i 2)]

theorem reduce_count_spec_witness :
    (reduceRun (countReducer "d") ["a"] [rowC1, rowC2, rowC3]).length =
        (pyGroupby (rkeyFn ["a"]) [rowC1, rowC2, rowC3]).length ∧
    ((pyGroupby (rkeyFn ["a"]) [rowC1, rowC2, rowC3]).map Prod.fst).Nodup ∧
    (∀ t, t ∈ (pyGroupby (rkeyFn ["a"]) [rowC1, rowC2, rowC3]).map Prod.fst ↔
        t ∈ [rowC1, rowC2, rowC3].map (rkeyFn ["a"])) ∧
    ((reduceRun (countReducer "d") ["a"] [rowC1, rowC2, rowC3]).map
        (fun r => valToInt (r.get "d"))).sum = (([rowC1, rowC2, rowC3].length : Nat) : Int) :=
  reduce_count_spec "d" ["a"] [rowC1, rowC2, rowC3]
    (List.chain'_cons.mpr ⟨by decide, List.chain'_cons.mpr ⟨by decide,
      List.chain'_singleton _⟩⟩)

/-! ### The sort-merge Join driver (`operations/base.py` `Join.__call__`) -/

/-- `Join._comparator`: the list of values at the join keys. -/
def joinKeyFn (keys : List String) (r : Row) : List Val :=
  keys.map (fun k => r.get k)

/-- `Join.__call__`'s merge loop over the two `groupby` streams: compare the
current keys, emit the joiner on the unmatched or matched groups, then drain
whichever side remains. -/
def mergeJoin (joiner : List Row → List Row → List Row) :
    List (List Val × List Row) → List (List Val × List Row) → List Row
  | [], [] => []
  | [], g :: gb => joiner [] g.2 ++ mergeJoin joiner [] gb
  | g :: ga, [] => joiner g.2 [] ++ mergeJoin joiner ga []
  | (ak, ag) :: ga, (bk, bg) :: gb =>
    if ak < bk then joiner ag [] ++ mergeJoin joiner ga ((bk, bg) :: gb)
    else if bk < ak then joiner [] bg ++ mergeJoin joiner ((ak, ag) :: ga) gb
    else joiner ag bg ++ mergeJoin joiner ga gb
termination_by ga gb => ga.length + gb.length
decreasing_by all_goals simp_arith

/-- `Join.__call__`: group both sorted inputs by the comparator and merge. -/
def joinRun (joiner : List Row → List Row → List Row) (keys : List String)
    (ra rb : List Row) : List Row :=
  mergeJoin joiner (pyGroupby (joinKeyFn keys) ra) (pyGroupby (joinKeyFn keys) rb)

theorem prodTables_nil_left (sa sb : String) (keys : List String) (rb : List Row) :
    prodTables sa sb keys [] rb = [] := by
  by_cases h : rb = [] <;> simp [prodTables, h]

theorem prodTables_nil_right (sa sb : String) (keys : List String) (ra : List Row) :
    prodTables sa sb keys ra [] = [] := by
  simp [prodTables]

/-- An unmatched left group passes through an `OuterJoiner` verbatim. -/
theorem outerJoiner_left (sa sb : String) (keys : List String) (ag : List Row) :
    outerJoiner sa sb keys ag [] = ag := by
  by_cases h : ag = [] <;> simp [outerJoiner, prodTables_nil_right, h]

/-- An unmatched right group passes through an `OuterJoiner` verbatim. -/
theorem outerJoiner_right (sa sb : String) (keys : List String) (bg : List Row) :
    outerJoiner sa sb keys [] bg = bg := by
  by_cases h : bg = [] <;> simp [outerJoiner, prodTables_nil_left, h]

/-- On a matched pair of non-empty groups, `OuterJoiner` and `InnerJoiner`
agree (only the cartesian product is emitted). -/
theorem outerJoiner_matched (sa sb : String) (keys : List String) (ag bg : List Row)
    (hag : ag ≠ []) (hbg : bg ≠ []) :
    outerJoiner sa sb keys ag bg = innerJoiner sa sb keys ag bg := by
  simp [outerJoiner, innerJoiner, hag, hbg]

theorem innerJoiner_nil_left (sa sb : String) (keys : List String) (bg : List Row) :
    innerJoiner sa sb keys [] bg = [] := prodTables_nil_left sa sb keys bg

theorem innerJoiner_nil_right (sa sb : String) (keys : List String) (ag : List Row) :
    innerJoiner sa sb keys ag [] = [] := prodTables_nil_right sa sb keys ag

/-- Whether some group of `gs` carries the key `k`. -/
def keysContain (gs : List (List Val × List Row)) (k : List Val) : Bool :=
  gs.any (fun g => decide (g.1 = k))

theorem keysContain_iff (gs : List (List Val × List Row)) (k : List Val) :
    keysContain gs k = true ↔ k ∈ gs.map Prod.fst := by
  induction gs with
  | nil => simp [keysContain]
  | cons g gs ih =>
    simp only [keysContain, List.any_cons, Bool.or_eq_true, decide_eq_true_eq,
      List.map_cons, List.mem_cons] at *
    constructor
    · rintro (h | h)
      · exact Or.inl h.symm
      · exact Or.inr (ih.mp h)
    · rintro (h | h)
      · exact Or.inl h.symm
      · exact Or.inr (ih.mpr h)

/-- The rows of the groups of `ga` whose key occurs in no group of `gb`. -/
def unmatchedRows (ga gb : List (List Val × List Row)) : List Row :=
  ((ga.filter (fun g => !(keysContain gb g.1))).map Prod.snd).flatten

theorem unmatchedRows_nil_left (gb : List (List Val × List Row)) :
    unmatchedRows [] gb = [] := rfl

theorem unmatchedRows_nil_right (ga : List (List Val × List Row)) :
    unmatchedRows ga [] = (ga.map Prod.snd).flatten := by
  rw [unmatchedRows]
  have hfil : ga.filter (fun g => !(keysContain [] g.1)) = ga :=
    List.filter_eq_self.mpr (fun g _ => rfl)
  rw [hfil]

theorem unmatchedRows_cons_not_mem (ak : List Val) (ag : List Row)
    (ga gb : List (List Val × List Row)) (h : ak ∉ gb.map Prod.fst) :
    unmatchedRows ((ak, ag) :: ga) gb = ag ++ unmatchedRows ga gb := by
  have hc : keysContain gb ak = false :=
    Bool.eq_false_iff.mpr (fun hh => h ((keysContain_iff gb ak).mp hh))
  simp [unmatchedRows, List.filter_cons, hc]

theorem unmatchedRows_cons_mem (ak : List Val) (ag : List Row)
    (ga gb : List (List Val × List Row)) (h : ak ∈ gb.map Prod.fst) :
    unmatchedRows ((ak, ag) :: ga) gb = unmatchedRows ga gb := by
  have hc : keysContain gb ak = true := (keysContain_iff gb ak).mpr h
  simp [unmatchedRows, List.filter_cons, hc]

theorem unmatchedRows_congr_right (ga gb gb' : List (List Val × List Row))
    (h : ∀ g ∈ ga, (g.1 ∈ gb.map Prod.fst ↔ g.1 ∈ gb'.map Prod.fst)) :
    unmatchedRows ga gb = unmatchedRows ga gb' := by
  rw [unmatchedRows, unmatchedRows, List.filter_congr]
  intro g hg
  apply congrArg Bool.not
  rw [Bool.eq_iff_iff, keysContain_iff, keysContain_iff]
  exact h g hg

/-- In a strictly increasing chain, the head is below every later element. -/
theorem chain_lt_head {κ : Type} [LinearOrder κ] (x : κ) (xs : List κ)
    (h : List.Chain' (fun a b => a < b) (x :: xs)) : ∀ y ∈ xs, x < y := by
  haveI : IsTrans κ (fun a b => a < b) := ⟨fun _ _ _ h1 h2 => lt_trans h1 h2⟩
  have hpw := List.chain'_iff_pairwise.mp h
  exact (List.pairwise_cons.mp hpw).1

theorem perm_shuffle {α : Type} (x m r : List α) :
    (x ++ (m ++ r)).Perm (m ++ (x ++ r)) := by
  have h2 : ((x ++ m) ++ r).Perm ((m ++ x) ++ r) :=
    List.perm_append_comm.append_right r
  rw [← List.append_assoc, ← List.append_assoc]
  exact h2

/-- The sort-merge driver with `OuterJoiner` emits, as a multiset, the
`InnerJoiner` output plus the rows of the groups unmatched on either side. -/
theorem mergeJoin_outer_perm (sa sb : String) (keys : List String) :
    ∀ (ga gb : List (List Val × List Row)),
      List.Chain' (fun a b => a < b) (ga.map Prod.fst) →
      List.Chain' (fun a b => a < b) (gb.map Prod.fst) →
      (∀ g ∈ ga, g.2 ≠ []) → (∀ g ∈ gb, g.2 ≠ []) →
      (mergeJoin (outerJoiner sa sb keys) ga gb).Perm
        (mergeJoin (innerJoiner sa sb keys) ga gb ++
          (unmatchedRows ga gb ++ unmatchedRows gb ga)) := by
  intro ga gb
  induction ga, gb using mergeJoin.induct (outerJoiner sa sb keys) with
  | case1 =>
    intro _ _ _ _
    simp [mergeJoin, unmatchedRows_nil_left]
  | case2 g gb ih =>
    intro hka hkb hga hgb
    have ihp := ih List.chain'_nil (List.Chain'.tail hkb) (by intro g hg; simp at hg)
      (fun g' hg' => hgb g' (List.mem_cons_of_mem g hg'))
    simp only [mergeJoin, outerJoiner_right, innerJoiner_nil_left,
      unmatchedRows_nil_left, unmatchedRows_nil_right, List.nil_append,
      List.map_cons, List.flatten_cons] at ihp ⊢
    exact (ihp.append_left g.2).trans (perm_shuffle g.2 _ _)
  | case3 g ga ih =>
    intro hka hkb hga hgb
    have ihp := ih (List.Chain'.tail hka) List.chain'_nil
      (fun g' hg' => hga g' (List.mem_cons_of_mem g hg')) (by intro g hg; simp at hg)
    simp only [mergeJoin, outerJoiner_left, innerJoiner_nil_right,
      unmatchedRows_nil_left, unmatchedRows_nil_right, List.nil_append,
      List.map_cons, List.flatten_cons, List.append_nil] at ihp ⊢
    exact (ihp.append_left g.2).trans (perm_shuffle g.2 _ _)
  | case4 ak ag ga bk bg gb hlt ih =>
    intro hka hkb hga hgb
    have hkatail : List.Chain' (fun a b => a < b) (ga.map Prod.fst) := by
      simpa using List.Chain'.tail (l := ak :: ga.map Prod.fst) hka
    have ihp := ih hkatail hkb
      (fun g' hg' => hga g' (List.mem_cons_of_mem _ hg')) hgb
    have hnotmem : ak ∉ ((bk, bg) :: gb).map Prod.fst := by
      simp only [List.map_cons, List.mem_cons]
      push_neg
      refine ⟨ne_of_lt hlt, ?_⟩
      intro hmem'
      have hbk : bk < ak := chain_lt_head bk (gb.map Prod.fst) (by simpa using hkb) ak hmem'
      exact absurd (lt_trans hlt hbk) (lt_irrefl ak)
    have hcong : unmatchedRows ((bk, bg) :: gb) ((ak, ag) :: ga) =
        unmatchedRows ((bk, bg) :: gb) ga := by
      apply unmatchedRows_congr_right
      intro g hg
      have hgtak : ak < g.1 := by
        rcases List.mem_cons.mp hg with rfl | hg'
        · exact hlt
        · have hbk : bk < g.1 :=
            chain_lt_head bk (gb.map Prod.fst) (by simpa using hkb) g.1
              (List.mem_map_of_mem Prod.fst hg')
          exact lt_trans hlt hbk
      have hne : g.1 ≠ ak := fun he => absurd (he ▸ hgtak) (lt_irrefl ak)
      simp [hne]
    rw [mergeJoin, if_pos hlt, mergeJoin, if_pos hlt,
      unmatchedRows_cons_not_mem ak ag ga _ hnotmem, hcong,
      outerJoiner_left, innerJoiner_nil_right, List.nil_append, List.append_assoc]
    exact (ihp.append_left ag).trans (perm_shuffle ag _ _)
  | case5 ak ag ga bk bg gb hnlt hlt ih =>
    intro hka hkb hga hgb
    have hkbtail : List.Chain' (fun a b => a < b) (gb.map Prod.fst) := by
      simpa using List.Chain'.tail (l := bk :: gb.map Prod.fst) hkb
    have ihp := ih hka hkbtail hga
      (fun g' hg' => hgb g' (List.mem_cons_of_mem _ hg'))
    have hnotmem : bk ∉ ((ak, ag) :: ga).map Prod.fst := by
      simp only [List.map_cons, List.mem_cons]
      push_neg
      refine ⟨ne_of_lt hlt, ?_⟩
      intro hmem'
      have hak : ak < bk := chain_lt_head ak (ga.map Prod.fst) (by simpa using hka) bk hmem'
      exact absurd (lt_trans hlt hak) (lt_irrefl bk)
    have hcong : unmatchedRows ((ak, ag) :: ga) ((bk, bg) :: gb) =
        unmatchedRows ((ak, ag) :: ga) gb := by
      apply unmatchedRows_congr_right
      intro g hg
      have hgtbk : bk < g.1 := by
        rcases List.mem_cons.mp hg with rfl | hg'
        · exact hlt
        · have hak : ak < g.1 :=
            chain_lt_head ak (ga.map Prod.fst) (by simpa using hka) g.1
              (List.mem_map_of_mem Prod.fst hg')
          exact lt_trans hlt hak
      have hne : g.1 ≠ bk := fun he => absurd (he ▸ hgtbk) (lt_irrefl bk)
      simp [hne]
    rw [mergeJoin, if_neg hnlt, if_pos hlt, mergeJoin, if_neg hnlt, if_pos hlt,
      unmatchedRows_cons_not_mem bk bg gb _ hnotmem, hcong,
      outerJoiner_right, innerJoiner_nil_left, List.nil_append]
    refine ((ihp.append_left bg).trans (perm_shuffle bg _ _)).trans ?_
    exact (perm_shuffle bg _ _).append_left _
  | case6 ak ag ga bk bg gb hnlt hnlt' ih =>
    intro hka hkb hga hgb
    have heq : ak = bk := le_antisymm (le_of_not_lt hnlt') (le_of_not_lt hnlt)
    have hkatail : List.Chain' (fun a b => a < b) (ga.map Prod.fst) := by
      simpa using List.Chain'.tail (l := ak :: ga.map Prod.fst) hka
    have hkbtail : List.Chain' (fun a b => a < b) (gb.map Prod.fst) := by
      simpa using List.Chain'.tail (l := bk :: gb.map Prod.fst) hkb
    have ihp := ih hkatail hkbtail
      (fun g' hg' => hga g' (List.mem_cons_of_mem _ hg'))
      (fun g' hg' => hgb g' (List.mem_cons_of_mem _ hg'))
    have hmemab : ak ∈ ((bk, bg) :: gb).map Prod.fst := by simp [heq]
    have hmemba : bk ∈ ((ak, ag) :: ga).map Prod.fst := by simp [heq]
    have hconga : unmatchedRows ga ((bk, bg) :: gb) = unmatchedRows ga gb := by
      apply unmatchedRows_congr_right
      intro g hg
      have hgt : ak < g.1 :=
        chain_lt_head ak (ga.map Prod.fst) (by simpa using hka) g.1
          (List.mem_map_of_mem Prod.fst hg)
      have hne : g.1 ≠ bk := fun he => absurd (heq ▸ he ▸ hgt) (lt_irrefl _)
      simp [hne]
    have hcongb : unmatchedRows gb ((ak, ag) :: ga) = unmatchedRows gb ga := by
      apply unmatchedRows_congr_right
      intro g hg
      have hgt : bk < g.1 :=
        chain_lt_head bk (gb.map Prod.fst) (by simpa using hkb) g.1
          (List.mem_map_of_mem Prod.fst hg)
      have hne : g.1 ≠ ak := fun he => absurd (heq ▸ he ▸ hgt) (lt_irrefl _)
      simp [hne]
    have hag : ag ≠ [] := hga (ak, ag) (List.mem_cons_self _ _)
    have hbg : bg ≠ [] := hgb (bk, bg) (List.mem_cons_self _ _)
    rw [mergeJoin, if_neg hnlt, if_neg hnlt', mergeJoin, if_neg hnlt, if_neg hnlt',
      unmatchedRows_cons_mem ak ag ga _ hmemab, unmatchedRows_cons_mem bk bg gb _ hmemba,
      hconga, hcongb, outerJoiner_matched sa sb keys ag bg hag hbg, List.append_assoc]
    exact ihp.append_left (innerJoiner sa sb keys ag bg)

/-- Group-level unmatched rows are exactly the rowwise-filtered unmatched rows. -/
theorem unmatchedRows_groupby (f : Row → List Val) (ra rb : List Row) :
    unmatchedRows (pyGroupby f ra) (pyGroupby f rb) =
      ra.filter (fun r => !(decide (f r ∈ rb.map f))) := by
  rw [unmatchedRows]
  rw [pyGroupby_filter_flatten f
    (fun k => !(keysContain (pyGroupby f rb) k)) ra]
  apply List.filter_congr
  intro r _
  apply congrArg Bool.not
  rw [Bool.eq_iff_iff, keysContain_iff, decide_eq_true_eq]
  exact pyGroupby_keys_mem f rb (f r)

/-- **C3.** For inputs sorted ascending by the join keys, the `Join` operator
with `OuterJoiner` produces, as a multiset, the `InnerJoiner` output plus the
original rows (verbatim, no renaming or suffixing) of every key group present
on only one side. -/
theorem join_outer_inner_spec (sa sb : String) (keys : List String) (ra rb : List Row)
    (ha : List.Chain' (fun r s => joinKeyFn keys r ≤ joinKeyFn keys s) ra)
    (hb : List.Chain' (fun r s => joinKeyFn keys r ≤ joinKeyFn keys s) rb) :
    (joinRun (outerJoiner sa sb keys) keys ra rb).Perm
      (joinRun (innerJoiner sa sb keys) keys ra rb ++
        (ra.filter (fun r => !(decide (joinKeyFn keys r ∈ rb.map (joinKeyFn keys)))) ++
         rb.filter (fun r => !(decide (joinKeyFn keys r ∈ ra.map (joinKeyFn keys)))))) := by
  have h := mergeJoin_outer_perm sa sb keys (pyGroupby (joinKeyFn keys) ra)
    (pyGroupby (joinKeyFn keys) rb)
    (pyGroupby_sorted_strict _ ra ha) (pyGroupby_sorted_strict _ rb hb)
    (pyGroupby_ne_nil _ ra) (pyGroupby_ne_nil _ rb)
  rw [joinRun, joinRun]
  rw [unmatchedRows_groupby (joinKeyFn keys) ra rb,
    unmatchedRows_groupby (joinKeyFn keys) rb ra] at h
  exact h

/-- Concrete rows for the outer-join witness (spec seed scenarios 2 and 3). -/
def rowJ1 : Row := [("k", Val.i 1), ("v", Val.s "a")]

/-- Concrete rows for the outer-join witness. -/
def rowJ2 : Row := [("k", Val.i 2), ("v", Val.s "b")]

/-- Concrete rows for the outer-join witness. -/
def rowJ3 : Row := [("k", Val.i 1), ("w", Val.i 10)]

/-- Concrete rows for the outer-join witness. -/
def rowJ4 : Row := [("k", Val.i 1), ("w", Val.i 20)]

/-- Concrete rows for the outer-join witness. -/
def rowJ5 : Row := [("k", Val.i 3), ("w", Val.i 9)]

theorem join_outer_inner_spec_witness :
    (joinRun (outerJoiner "_1" "_2" ["k"]) ["k"] [rowJ1, rowJ2] [rowJ3, rowJ4, rowJ5]).Perm
      (joinRun (innerJoiner "_1" "_2" ["k"]) ["k"] [rowJ1, rowJ2] [rowJ3, rowJ4, rowJ5] ++
        ([rowJ1, rowJ2].filter (fun r => !(decide (joinKeyFn ["k"] r ∈
            [rowJ3, rowJ4, rowJ5].map (joinKeyFn ["k"])))) ++
         [rowJ3, rowJ4, rowJ5].filter (fun r => !(decide (joinKeyFn ["k"] r ∈
            [rowJ1, rowJ2].map (joinKeyFn ["k"])))))) :=
  join_outer_inner_spec "_1" "_2" ["k"] [rowJ1, rowJ2] [rowJ3, rowJ4, rowJ5]
    (List.chain'_cons.mpr ⟨by decide, List.chain'_singleton _⟩)
    (List.chain'_cons.mpr ⟨by decide, List.chain'_cons.mpr ⟨by decide,
      List.chain'_singleton _⟩⟩)

/-! ### TopN (`operations/reduce.py`)

`TopN.__call__` keeps a min-heap of tuples `(row[column], -i, row)` of size at
most `n`.  Tuples compare lexicographically and the `-i` components are
pairwise distinct, so the `row` component is never compared and the heap's
observable behaviour (`heap[0]` is the minimum, `heappop` removes it,
`heappush` adds an element) is fully determined by its contents.  We model the
heap by its contents kept as a list sorted ascending by the `(value, -i)`
key; the claims proved are emission-order free, matching the spec's
"emission order is unspecified". -/

/-- The comparison key `(row[column], -i)` of a heap tuple. -/
abbrev TopKey := Val ×ₗ Int

/-- Key of the `i`-th row of the group. -/
def topKey (col : String) (i : Nat) (r : Row) : TopKey :=
  toLex (r.get col, -(i : Int))

/-- `heapq.heappush`: insert into the sorted contents. -/
def heapInsert (e : TopKey × Row) : List (TopKey × Row) → List (TopKey × Row)
  | [] => [e]
  | x :: xs => if e.1 < x.1 then e :: x :: xs else x :: heapInsert e xs

theorem heapInsert_perm (e : TopKey × Row) (l : List (TopKey × Row)) :
    (heapInsert e l).Perm (e :: l) := by
  induction l with
  | nil => exact List.Perm.refl _
  | cons x xs ih =>
    rw [heapInsert]
    by_cases h : e.1 < x.1
    · rw [if_pos h]
    · rw [if_neg h]
      exact (ih.cons x).trans (List.Perm.swap e x xs)

theorem heapInsert_length (e : TopKey × Row) (l : List (TopKey × Row)) :
    (heapInsert e l).length = l.length + 1 :=
  (heapInsert_perm e l).length_eq

theorem heapInsert_mem (y e : TopKey × Row) (l : List (TopKey × Row)) :
    y ∈ heapInsert e l ↔ y = e ∨ y ∈ l := by
  rw [(heapInsert_perm e l).mem_iff, List.mem_cons]

theorem heapInsert_head (e : TopKey × Row) (l : List (TopKey × Row)) :
    (heapInsert e l).head? = some e ∨ (heapInsert e l).head? = l.head? := by
  cases l with
  | nil => left; rfl
  | cons x xs =>
    rw [heapInsert]
    by_cases h : e.1 < x.1
    · left; rw [if_pos h]; rfl
    · right; rw [if_neg h]; rfl

theorem heapInsert_sorted (e : TopKey × Row) (l : List (TopKey × Row))
    (hs : List.Chain' (fun x y => x.1 < y.1) l) (hne : ∀ x ∈ l, x.1 ≠ e.1) :
    List.Chain' (fun x y => x.1 < y.1) (heapInsert e l) := by
  induction l with
  | nil => simp [heapInsert]
  | cons x xs ih =>
    rw [heapInsert]
    by_cases h : e.1 < x.1
    · rw [if_pos h]
      exact List.chain'_cons.mpr ⟨h, hs⟩
    · rw [if_neg h]
      have hxe : x.1 < e.1 :=
        lt_of_le_of_ne (le_of_not_lt h) (hne x (List.mem_cons_self x xs))
      refine List.chain'_cons'.mpr ⟨?_, ih (List.Chain'.tail hs)
        (fun y hy => hne y (List.mem_cons_of_mem x hy))⟩
      intro z hz
      rcases heapInsert_head e xs with hh | hh
      · rw [hh, Option.mem_def, Option.some.injEq] at hz
        rw [← hz]
        exact hxe
      · rw [hh] at hz
        exact (List.chain'_cons'.mp hs).1 z hz

/-- One iteration of the `TopN.__call__` loop on row `r` with index `i`: push
while the heap holds fewer than `n` tuples; otherwise compare `row[column]`
with the heap minimum's value, replacing the minimum on a strict win.  With
`n = 0` the full branch reads `sorted_lst[0]` of an empty heap, an
`IndexError`, modelled as `none`. -/
def topNStep (col : String) (n : Nat) (st : List (TopKey × Row)) (i : Nat) (r : Row) :
    Option (List (TopKey × Row)) :=
  if st.length < n then some (heapInsert (topKey col i r, r) st)
  else
    match st with
    | [] => none
    | m :: rest =>
      if (ofLex m.1).1 < r.get col then some (heapInsert (topKey col i r, r) rest)
      else some (m :: rest)

/-- The `TopN.__call__` loop over the group, threading the index `i`. -/
def topNLoop (col : String) (n : Nat) :
    List Row → Nat → List (TopKey × Row) → Option (List (TopKey × Row))
  | [], _, st => some st
  | r :: rs, i, st => do topNLoop col n rs (i + 1) (← topNStep col n st i r)

/-- `TopN.__call__`: the rows held by the final heap (emission order is the
heap's internal order, unspecified; we model contents). -/
def topNRun (col : String) (n : Nat) (rows : List Row) : Option (List Row) :=
  (topNLoop col n rows 0 []).map (fun st => st.map Prod.snd)

/-- Head of a strictly key-sorted pair list is below all later keys. -/
theorem chain_fst_lt_head {κ β : Type} [LinearOrder κ] (m : κ × β) (rest : List (κ × β))
    (h : List.Chain' (fun x y => x.1 < y.1) (m :: rest)) : ∀ x ∈ rest, m.1 < x.1 := by
  have hmap : List.Chain' (fun a b => a < b) ((m :: rest).map Prod.fst) :=
    (List.chain'_map Prod.fst).mpr h
  rw [List.map_cons] at hmap
  intro x hx
  exact chain_lt_head m.1 (rest.map Prod.fst) hmap x.1 (List.mem_map_of_mem Prod.fst hx)

theorem lex_lt_fst {a b : TopKey} (h : (ofLex a).1 < (ofLex b).1) : a < b := by
  have := (Prod.Lex.lt_iff (ofLex a) (ofLex b)).mpr (Or.inl h)
  simpa using this

theorem lex_lt_snd {a b : TopKey} (h1 : (ofLex a).1 = (ofLex b).1)
    (h2 : (ofLex a).2 < (ofLex b).2) : a < b := by
  have := (Prod.Lex.lt_iff (ofLex a) (ofLex b)).mpr (Or.inr ⟨h1, h2⟩)
  simpa using this

theorem lex_fst_le {a b : TopKey} (h : a < b) : (ofLex a).1 ≤ (ofLex b).1 := by
  have h' : toLex (ofLex a) < toLex (ofLex b) := by simpa using h
  rcases (Prod.Lex.lt_iff (ofLex a) (ofLex b)).mp h' with h1 | ⟨h1, _⟩
  · exact le_of_lt h1
  · exact le_of_eq h1

theorem lex_ne_of_snd_ne {a b : TopKey} (h : (ofLex a).2 ≠ (ofLex b).2) : a ≠ b :=
  fun he => h (by rw [he])

/-- Invariant of the `TopN` loop: it never errors for `n ≥ 1`, the heap stays
sorted with `min n` processed elements, the heap plus the dropped elements is
a permutation of the input prefix, every dropped element is strictly below
every kept one under the `(value, -index)` order, and once the heap is full
any strict lower bound of it bounds the final heap. -/
theorem topNLoop_spec (col : String) (n : Nat) (hn : 1 ≤ n) :
    ∀ (rs : List Row) (i : Nat) (st : List (TopKey × Row)),
      List.Chain' (fun x y => x.1 < y.1) st →
      st.length ≤ n →
      (∀ x ∈ st, -(i : Int) < (ofLex x.1).2) →
      ∃ st' dropped,
        topNLoop col n rs i st = some st' ∧
        List.Chain' (fun x y => x.1 < y.1) st' ∧
        st'.length = min n (st.length + rs.length) ∧
        (st ++ (List.enumFrom i rs).map (fun p => (topKey col p.1 p.2, p.2))).Perm
          (dropped ++ st') ∧
        (∀ d ∈ dropped, ∀ x ∈ st', d.1 < x.1) ∧
        (st.length = n → ∀ b : TopKey, (∀ y ∈ st, b < y.1) → ∀ x ∈ st', b < x.1) := by
  intro rs
  induction rs with
  | nil =>
    intro i st hsort hlen hfresh
    refine ⟨st, [], rfl, hsort, ?_, by simp, by simp, ?_⟩
    · simp [Nat.min_eq_right hlen]
    · intro _ b hb x hx; exact hb x hx
  | cons r rs ih =>
    intro i st hsort hlen hfresh
    have hcast : -((i : Int) + 1) < -(i : Int) := by omega
    by_cases hfull : st.length < n
    · have hstep : topNStep col n st i r = some (heapInsert (topKey col i r, r) st) := by
        rw [topNStep.eq_def, if_pos hfull]
      have hne : ∀ x ∈ st, x.1 ≠ (topKey col i r, r).1 := by
        intro x hx
        exact lex_ne_of_snd_ne (ne_of_gt (hfresh x hx))
      have hsort2 := heapInsert_sorted _ st hsort hne
      have hlen2 : (heapInsert (topKey col i r, r) st).length ≤ n := by
        rw [heapInsert_length]; exact Nat.succ_le_of_lt hfull
      have hfresh2 : ∀ x ∈ heapInsert (topKey col i r, r) st,
          -((i + 1 : Nat) : Int) < (ofLex x.1).2 := by
        intro x hx
        rcases (heapInsert_mem x _ st).mp hx with rfl | hx
        · show -((i + 1 : Nat) : Int) < -(i : Int)
          push_cast
          omega
        · refine lt_trans ?_ (hfresh x hx)
          push_cast
          omega
      obtain ⟨st', dropped', hrun, hsort', hlen', hperm', hdrop', hpost4'⟩ :=
        ih (i + 1) _ hsort2 hlen2 hfresh2
      refine ⟨st', dropped', ?_, hsort', ?_, ?_, hdrop', ?_⟩
      · simp only [topNLoop, hstep, Option.bind_eq_bind, Option.some_bind]
        exact hrun
      · rw [hlen', heapInsert_length]
        congr 1
        simp only [List.length_cons]
        omega
      · rw [List.enumFrom_cons, List.map_cons]
        refine (List.perm_middle.trans ?_)
        refine List.Perm.trans ?_ hperm'
        exact (heapInsert_perm (topKey col i r, r) st).symm.append_right _
      · intro hl
        exact absurd hl (Nat.ne_of_lt hfull)
    · have hlenEq : st.length = n := le_antisymm hlen (le_of_not_lt hfull)
      cases st with
      | nil => exact absurd hn (by simp at hlenEq; omega)
      | cons m rest =>
        have hmin_lt_rest := chain_fst_lt_head m rest hsort
        have hrestlen : rest.length + 1 = n := by simpa using hlenEq
        by_cases hrep : (ofLex m.1).1 < r.get col
        · have hstep : topNStep col n (m :: rest) i r =
              some (heapInsert (topKey col i r, r) rest) := by
            rw [topNStep.eq_def, if_neg hfull]
            show (if (ofLex m.1).1 < r.get col then _ else _) = _
            rw [if_pos hrep]
          have hm_lt_e : m.1 < (topKey col i r, r).1 := lex_lt_fst hrep
          have hne : ∀ x ∈ rest, x.1 ≠ (topKey col i r, r).1 := by
            intro x hx
            exact lex_ne_of_snd_ne (ne_of_gt (hfresh x (List.mem_cons_of_mem m hx)))
          have hsort2 := heapInsert_sorted _ rest (List.Chain'.tail hsort) hne
          have hst2len : (heapInsert (topKey col i r, r) rest).length = n := by
            rw [heapInsert_length, hrestlen]
          have hfresh2 : ∀ x ∈ heapInsert (topKey col i r, r) rest,
              -((i + 1 : Nat) : Int) < (ofLex x.1).2 := by
            intro x hx
            rcases (heapInsert_mem x _ rest).mp hx with rfl | hx
            · show -((i + 1 : Nat) : Int) < -(i : Int)
              push_cast
              omega
            · refine lt_trans ?_ (hfresh x (List.mem_cons_of_mem m hx))
              push_cast
              omega
          obtain ⟨st', dropped', hrun, hsort', hlen', hperm', hdrop', hpost4'⟩ :=
            ih (i + 1) _ hsort2 (le_of_eq hst2len) hfresh2
          have hm_lt_st2 : ∀ x ∈ heapInsert (topKey col i r, r) rest, m.1 < x.1 := by
            intro x hx
            rcases (heapInsert_mem x _ rest).mp hx with rfl | hx
            · exact hm_lt_e
            · exact hmin_lt_rest x hx
          have hm_lt_st' : ∀ x ∈ st', m.1 < x.1 := hpost4' hst2len m.1 hm_lt_st2
          refine ⟨st', m :: dropped', ?_, hsort', ?_, ?_, ?_, ?_⟩
          · simp only [topNLoop, hstep, Option.bind_eq_bind, Option.some_bind]
            exact hrun
          · rw [hlen', hst2len, Nat.min_eq_left (Nat.le_add_right n _)]
            rw [hlenEq]
            exact (Nat.min_eq_left (Nat.le_add_right n _)).symm
          · rw [List.enumFrom_cons, List.map_cons]
            show (m :: (rest ++ _)).Perm (m :: (dropped' ++ st'))
            refine List.Perm.cons m ?_
            refine (List.perm_middle.trans ?_).trans hperm'
            exact (heapInsert_perm (topKey col i r, r) rest).symm.append_right _
          · intro d hd
            rcases List.mem_cons.mp hd with rfl | hd
            · exact hm_lt_st'
            · exact hdrop' d hd
          · intro _ b hb
            refine hpost4' hst2len b ?_
            intro x hx
            rcases (heapInsert_mem x _ rest).mp hx with rfl | hx
            · have hble : (ofLex b).1 ≤ (ofLex m.1).1 :=
                lex_fst_le (hb m (List.mem_cons_self m rest))
              exact lex_lt_fst (lt_of_le_of_lt hble hrep)
            · exact hb x (List.mem_cons_of_mem m hx)
        · have hstep : topNStep col n (m :: rest) i r = some (m :: rest) := by
            rw [topNStep.eq_def, if_neg hfull]
            show (if (ofLex m.1).1 < r.get col then _ else _) = _
            rw [if_neg hrep]
          have hfresh2 : ∀ x ∈ m :: rest, -((i + 1 : Nat) : Int) < (ofLex x.1).2 := by
            intro x hx
            refine lt_trans ?_ (hfresh x hx)
            push_cast
            omega
          obtain ⟨st', dropped', hrun, hsort', hlen', hperm', hdrop', hpost4'⟩ :=
            ih (i + 1) (m :: rest) hsort hlen hfresh2
          have he_lt_m : (topKey col i r, r).1 < m.1 := by
            rcases lt_or_eq_of_le (le_of_not_lt hrep) with hlt | heqv
            · exact lex_lt_fst hlt
            · exact lex_lt_snd heqv (hfresh m (List.mem_cons_self m rest))
          have he_lt_st : ∀ x ∈ m :: rest, (topKey col i r, r).1 < x.1 := by
            intro x hx
            rcases List.mem_cons.mp hx with rfl | hx
            · exact he_lt_m
            · exact lt_trans he_lt_m (hmin_lt_rest x hx)
          have he_lt_st' : ∀ x ∈ st', (topKey col i r, r).1 < x.1 :=
            hpost4' hlenEq _ he_lt_st
          refine ⟨st', (topKey col i r, r) :: dropped', ?_, hsort', ?_, ?_, ?_, ?_⟩
          · simp only [topNLoop, hstep, Option.bind_eq_bind, Option.some_bind]
            exact hrun
          · rw [hlen', hlenEq, Nat.min_eq_left (Nat.le_add_right n _)]
            exact (Nat.min_eq_left (Nat.le_add_right n _)).symm
          · rw [List.enumFrom_cons, List.map_cons]
            exact List.perm_middle.trans (List.Perm.cons _ hperm')
          · intro d hd
            rcases List.mem_cons.mp hd with rfl | hd
            · exact he_lt_st'
            · exact hdrop' d hd
          · intro _ b hb
            exact hpost4' hlenEq b hb

/-- **C5.** For `n ≥ 1`, `TopN(col, n)` yields `min n |group|` rows (so at
most `n`); the yielded rows are `st.map Prod.snd` where the heap `st` plus the
dropped elements is a permutation of the indexed group, and every dropped
element is strictly below every kept element in the `(value, -index)` order:
the kept rows are exactly those with the largest values, and at a tied cutoff
value the earlier row (larger `-index`) is preferred. -/
theorem topN_spec (col : String) (n : Nat) (rows : List Row) (hn : 1 ≤ n) :
    ∃ st dropped,
      topNRun col n rows = some (st.map Prod.snd) ∧
      st.length = min n rows.length ∧
      ((rows.enum.map (fun p => (topKey col p.1 p.2, p.2))).Perm (dropped ++ st)) ∧
      (∀ d ∈ dropped, ∀ x ∈ st, d.1 < x.1) := by
  obtain ⟨st, dropped, hrun, _, hlen, hperm, hdrop, _⟩ :=
    topNLoop_spec col n hn rows 0 [] List.chain'_nil (by simp) (by simp)
  refine ⟨st, dropped, ?_, by simpa using hlen, ?_, hdrop⟩
  · rw [topNRun, hrun]
    rfl
  · simpa [List.enum] using hperm

/-- Concrete rows for the TopN witnesses (spec seed scenario 4). -/
def rowT1 : Row := [("x", Val.i 5)]

/-- Concrete rows for the TopN witnesses. -/
def rowT3 : Row := [("x", Val.i 3)]

theorem topN_spec_witness :
    ∃ st dropped,
      topNRun "x" 2 [rowT1, rowT1, rowT3] = some (st.map Prod.snd) ∧
      st.length = min 2 ([rowT1, rowT1, rowT3] : List Row).length ∧
      (([rowT1, rowT1, rowT3] : List Row).enum.map
        (fun p => (topKey "x" p.1 p.2, p.2))).Perm (dropped ++ st) ∧
      (∀ d ∈ dropped, ∀ x ∈ st, d.1 < x.1) :=
  topN_spec "x" 2 [rowT1, rowT1, rowT3] (by decide)

/-- **C10.** With `n = 0`, `TopN` on a non-empty group reads `sorted_lst[0]`
of the empty heap on the first row and fails (IndexError, modelled `none`)
instead of yielding zero rows; for every `n ≥ 1` it is total. -/
theorem topN_zero_spec (col : String) (rows : List Row) (h : rows ≠ []) :
    topNRun col 0 rows = none ∧
    ∀ m, 1 ≤ m → ∃ out, topNRun col m rows = some out := by
  constructor
  · match rows, h with
    | r :: rs, _ =>
      rw [topNRun]
      have hstep : topNStep col 0 [] 0 r = none := by
        rw [topNStep.eq_def]
        simp
      simp [topNLoop, hstep]
  · intro m hm
    obtain ⟨st, _, hrun, _⟩ :=
      topNLoop_spec col m hm rows 0 [] List.chain'_nil (by simp) (by simp)
    refine ⟨st.map Prod.snd, ?_⟩
    rw [topNRun, hrun]
    rfl

theorem topN_zero_spec_witness :
    topNRun "x" 0 [rowT3] = none ∧
    (∀ m, 1 ≤ m → ∃ out, topNRun "x" m [rowT3] = some out) :=
  topN_zero_spec "x" [rowT3] (by decide)

/-! ### TermFrequency (`operations/reduce.py`)

`TermFrequency.__call__` counts values with a `defaultdict(int)`, which in
CPython preserves insertion order, so distinct values are emitted in
first-seen order.  We model the counting dict by an insertion-ordered
association list. -/

/-- `counts[v] += 1` on the insertion-ordered counting map. -/
def tfBump (counts : List (Val × Nat)) (v : Val) : List (Val × Nat) :=
  match counts with
  | [] => [(v, 1)]
  | (w, c) :: rest => if w = v then (w, c + 1) :: rest else (w, c) :: tfBump rest v

/-- The final counting map of the `TermFrequency` loop. -/
def tfCounts (wcol : String) (rows : List Row) : List (Val × Nat) :=
  rows.foldl (fun m r => tfBump m (r.get wcol)) []

/-- `TermFrequency.__call__`: one output row per counting-map entry, the
group-key columns of the first row plus `wcol = v` and
`rcol = count / |group|` (float division modelled exactly in `ℚ`). -/
def termFrequency (wcol rcol : String) (gk : List String) (rows : List Row) : List Row :=
  let ret : Row :=
    match rows with
    | [] => []
    | r :: _ => gk.foldl (fun (m : Row) k => Row.insert m k (r.get k)) []
  (tfCounts wcol rows).map (fun p =>
    Row.insert (Row.insert ret wcol p.1) rcol
      (Val.q ((p.2 : ℚ) / (rows.length : ℚ))))

/-- Number of occurrences of a value. -/
def valCount (v : Val) : List Val → Nat
  | [] => 0
  | w :: ws => (if w = v then 1 else 0) + valCount v ws

/-- The distinct values of a list in first-seen order. -/
def firstSeen (vs : List Val) : List Val :=
  vs.foldl (fun acc v => if v ∈ acc then acc else acc ++ [v]) []

theorem tfBump_fst (m : List (Val × Nat)) (v : Val) :
    (tfBump m v).map Prod.fst =
      if v ∈ m.map Prod.fst then m.map Prod.fst else m.map Prod.fst ++ [v] := by
  induction m with
  | nil => simp [tfBump]
  | cons p rest ih =>
    rcases p with ⟨w, c⟩
    by_cases h : w = v
    · subst h
      simp [tfBump]
    · have h' : ¬ (v = w) := fun he => h he.symm
      rw [tfBump, if_neg h]
      simp only [List.map_cons, ih, List.mem_cons, h', false_or]
      by_cases hm : v ∈ rest.map Prod.fst <;> simp [hm]

theorem foldl_tfBump_fst (vs : List Val) :
    ∀ (m : List (Val × Nat)),
      ((vs.foldl tfBump m).map Prod.fst) =
        vs.foldl (fun acc v => if v ∈ acc then acc else acc ++ [v]) (m.map Prod.fst) := by
  induction vs with
  | nil => intro m; rfl
  | cons v vs ih =>
    intro m
    rw [List.foldl_cons, List.foldl_cons, ih, tfBump_fst]

theorem tfCounts_eq_foldl (wcol : String) (rows : List Row) :
    tfCounts wcol rows = (rows.map (fun r => r.get wcol)).foldl tfBump [] := by
  rw [tfCounts, List.foldl_map]

/-- The keys of the counting map are the distinct values in first-seen order. -/
theorem tfCounts_fst (wcol : String) (rows : List Row) :
    (tfCounts wcol rows).map Prod.fst = firstSeen (rows.map (fun r => r.get wcol)) := by
  rw [tfCounts_eq_foldl, firstSeen, foldl_tfBump_fst]
  rfl

theorem firstSeen_aux_nodup (vs : List Val) :
    ∀ (acc : List Val), acc.Nodup →
      (vs.foldl (fun acc v => if v ∈ acc then acc else acc ++ [v]) acc).Nodup := by
  induction vs with
  | nil => intro acc h; exact h
  | cons v vs ih =>
    intro acc h
    rw [List.foldl_cons]
    by_cases hm : v ∈ acc
    · rw [if_pos hm]; exact ih acc h
    · rw [if_neg hm]
      refine ih _ ?_
      simpa [List.nodup_append] using ⟨h, hm⟩

theorem firstSeen_aux_mem (vs : List Val) :
    ∀ (acc : List Val) (x : Val),
      x ∈ vs.foldl (fun acc v => if v ∈ acc then acc else acc ++ [v]) acc ↔
        x ∈ acc ∨ x ∈ vs := by
  induction vs with
  | nil => intro acc x; simp
  | cons v vs ih =>
    intro acc x
    rw [List.foldl_cons]
    by_cases hm : v ∈ acc
    · rw [if_pos hm, ih]
      simp only [List.mem_cons]
      constructor
      · rintro (h | h)
        · exact Or.inl h
        · exact Or.inr (Or.inr h)
      · rintro (h | rfl | h)
        · exact Or.inl h
        · exact Or.inl hm
        · exact Or.inr h
    · rw [if_neg hm, ih]
      simp only [List.mem_append, List.mem_singleton, List.mem_cons]
      tauto

/-- Count stored under a key of the counting map. -/
def cntFind (m : List (Val × Nat)) (v : Val) : Nat :=
  match m with
  | [] => 0
  | (w, c) :: rest => if w = v then c else cntFind rest v

theorem cntFind_tfBump_self (m : List (Val × Nat)) (v : Val) :
    cntFind (tfBump m v) v = cntFind m v + 1 := by
  induction m with
  | nil => simp [tfBump, cntFind]
  | cons p rest ih =>
    rcases p with ⟨w, c⟩
    by_cases h : w = v <;> simp [tfBump, cntFind, h, ih]

theorem cntFind_tfBump_other (m : List (Val × Nat)) (v w : Val) (h : w ≠ v) :
    cntFind (tfBump m w) v = cntFind m v := by
  induction m with
  | nil => simp [tfBump, cntFind, h]
  | cons p rest ih =>
    rcases p with ⟨u, c⟩
    by_cases hu : u = w
    · subst hu
      rw [tfBump, if_pos rfl, cntFind, if_neg h, cntFind, if_neg h]
    · rw [tfBump, if_neg hu, cntFind, cntFind]
      by_cases hv : u = v
      · rw [if_pos hv, if_pos hv]
      · rw [if_neg hv, if_neg hv, ih]

theorem cntFind_foldl (vs : List Val) :
    ∀ (m : List (Val × Nat)) (v : Val),
      cntFind (vs.foldl tfBump m) v = cntFind m v + valCount v vs := by
  induction vs with
  | nil => intro m v; simp [valCount]
  | cons u vs ih =>
    intro m v
    rw [List.foldl_cons, ih, valCount]
    by_cases h : u = v
    · subst h
      rw [cntFind_tfBump_self, if_pos rfl]
      omega
    · rw [cntFind_tfBump_other m v u h, if_neg h]
      omega

/-- Entries of a counting map with pairwise-distinct keys. -/
theorem cntFind_of_mem (m : List (Val × Nat)) (hnd : (m.map Prod.fst).Nodup) :
    ∀ p ∈ m, cntFind m p.1 = p.2 := by
  induction m with
  | nil => simp
  | cons q rest ih =>
    intro p hp
    have hnd' : (q.1 :: rest.map Prod.fst).Nodup := by simpa using hnd
    obtain ⟨hq, hrest⟩ := List.nodup_cons.mp hnd'
    rcases List.mem_cons.mp hp with rfl | hp
    · simp [cntFind]
    · have hne : q.1 ≠ p.1 := fun he => hq (he ▸ List.mem_map_of_mem Prod.fst hp)
      rw [cntFind, if_neg hne]
      exact ih hrest p hp

/-- Lookup in the first-row key projection `{k: row[k] for k in gk}`. -/
theorem foldl_insert_get (gkl : List String) (src : Row) :
    ∀ (base : Row) (k : String),
      (gkl.foldl (fun (m : Row) k' => Row.insert m k' (src.get k')) base).get k =
        if k ∈ gkl then src.get k else base.get k := by
  induction gkl with
  | nil => intro base k; simp
  | cons k0 gks ih =>
    intro base k
    rw [List.foldl_cons, ih]
    by_cases hk : k ∈ gks
    · simp [hk]
    · by_cases he : k = k0
      · subst he
        rw [if_neg hk, if_pos (List.mem_cons_self k gks), Row.get_insert_self]
      · have hnm : k ∉ k0 :: gks := by simp [List.mem_cons, he, hk]
        rw [if_neg hk, if_neg hnm]
        exact Row.get_insert_other base k0 k _ (fun hh => he hh.symm)

/-- **C6.** On a non-empty group, `TermFrequency` yields exactly one row per
distinct value observed at `word_col`, in first-seen order (the counting
dict's insertion order); each row carries the group-key columns of the first
row plus `word_col = v` and `result = count(v) / |group|`.  The hypotheses
record that the three column roles are distinct, which the claim presupposes
by listing them as separate fields of one row. -/
theorem term_frequency_spec (wcol rcol : String) (gk : List String)
    (r0 : Row) (rest : List Row)
    (hwr : rcol ≠ wcol) (hwg : wcol ∉ gk) (hrg : rcol ∉ gk) :
    ((tfCounts wcol (r0 :: rest)).map Prod.fst =
        firstSeen ((r0 :: rest).map (fun r => r.get wcol))) ∧
    ((tfCounts wcol (r0 :: rest)).map Prod.fst).Nodup ∧
    (∀ v, v ∈ (tfCounts wcol (r0 :: rest)).map Prod.fst ↔
        v ∈ (r0 :: rest).map (fun r => r.get wcol)) ∧
    (termFrequency wcol rcol gk (r0 :: rest)).length =
      (firstSeen ((r0 :: rest).map (fun r => r.get wcol))).length ∧
    termFrequency wcol rcol gk (r0 :: rest) =
      (firstSeen ((r0 :: rest).map (fun r => r.get wcol))).map (fun v =>
        Row.insert (Row.insert
            (gk.foldl (fun (m : Row) k => Row.insert m k (r0.get k)) []) wcol v) rcol
          (Val.q ((valCount v ((r0 :: rest).map (fun r => r.get wcol)) : ℚ) /
            (((r0 :: rest) : List Row).length : ℚ)))) ∧
    (∀ row ∈ termFrequency wcol rcol gk (r0 :: rest),
      row.get rcol = Val.q ((valCount (row.get wcol)
          ((r0 :: rest).map (fun r => r.get wcol)) : ℚ) /
          (((r0 :: rest) : List Row).length : ℚ)) ∧
      (∀ k ∈ gk, row.get k = r0.get k)) := by
  have hfst := tfCounts_fst wcol (r0 :: rest)
  have hnd : ((tfCounts wcol (r0 :: rest)).map Prod.fst).Nodup := by
    rw [hfst]
    exact firstSeen_aux_nodup _ [] List.nodup_nil
  have hmem : ∀ v, v ∈ (tfCounts wcol (r0 :: rest)).map Prod.fst ↔
      v ∈ (r0 :: rest).map (fun r => r.get wcol) := by
    intro v
    rw [hfst, firstSeen]
    simpa using firstSeen_aux_mem ((r0 :: rest).map (fun r => r.get wcol)) [] v
  have hpair : ∀ p ∈ tfCounts wcol (r0 :: rest),
      p.2 = valCount p.1 ((r0 :: rest).map (fun r => r.get wcol)) := by
    intro p hp
    have h1 := cntFind_of_mem _ hnd p hp
    have h2 : cntFind (tfCounts wcol (r0 :: rest)) p.1 =
        valCount p.1 ((r0 :: rest).map (fun r => r.get wcol)) := by
      rw [tfCounts_eq_foldl, cntFind_foldl]
      simp [cntFind]
    rw [← h1, h2]
  have hunfold : termFrequency wcol rcol gk (r0 :: rest) =
      (tfCounts wcol (r0 :: rest)).map (fun p =>
        Row.insert (Row.insert
            (gk.foldl (fun (m : Row) k => Row.insert m k (r0.get k)) []) wcol p.1) rcol
          (Val.q ((p.2 : ℚ) / (((r0 :: rest) : List Row).length : ℚ)))) := rfl
  have hmapeq : termFrequency wcol rcol gk (r0 :: rest) =
      (firstSeen ((r0 :: rest).map (fun r => r.get wcol))).map (fun v =>
        Row.insert (Row.insert
            (gk.foldl (fun (m : Row) k => Row.insert m k (r0.get k)) []) wcol v) rcol
          (Val.q ((valCount v ((r0 :: rest).map (fun r => r.get wcol)) : ℚ) /
            (((r0 :: rest) : List Row).length : ℚ)))) := by
    rw [hunfold]
    have hcongr : ∀ p ∈ tfCounts wcol (r0 :: rest),
        (Row.insert (Row.insert
            (gk.foldl (fun (m : Row) k => Row.insert m k (r0.get k)) []) wcol p.1) rcol
          (Val.q ((p.2 : ℚ) / (((r0 :: rest) : List Row).length : ℚ)))) =
        (fun v => Row.insert (Row.insert
            (gk.foldl (fun (m : Row) k => Row.insert m k (r0.get k)) []) wcol v) rcol
          (Val.q ((valCount v ((r0 :: rest).map (fun r => r.get wcol)) : ℚ) /
            (((r0 :: rest) : List Row).length : ℚ)))) p.1 := by
      intro p hp
      rw [hpair p hp]
    rw [List.map_congr_left hcongr, ← hfst, List.map_map]
    rfl
  refine ⟨hfst, hnd, hmem, by rw [hmapeq, List.length_map], hmapeq, ?_⟩
  intro row hrow
  rw [hmapeq] at hrow
  obtain ⟨v, _, rfl⟩ := List.mem_map.mp hrow
  have hw : (Row.insert (Row.insert
      (gk.foldl (fun (m : Row) k => Row.insert m k (r0.get k)) []) wcol v) rcol
      (Val.q ((valCount v ((r0 :: rest).map (fun r => r.get wcol)) : ℚ) /
        (((r0 :: rest) : List Row).length : ℚ)))).get wcol = v := by
    rw [Row.get_insert_other _ rcol wcol _ hwr, Row.get_insert_self]
  refine ⟨?_, ?_⟩
  · rw [hw, Row.get_insert_self]
  · intro k hk
    have hkr : rcol ≠ k := fun he => hrg (he ▸ hk)
    have hkw : wcol ≠ k := fun he => hwg (he ▸ hk)
    rw [Row.get_insert_other _ rcol k _ hkr, Row.get_insert_other _ wcol k _ hkw,
      foldl_insert_get, if_pos hk]

/-- Concrete rows for the TermFrequency witness (spec seed scenario 6). -/
def rowW1 : Row := [("w", Val.s "a")]

/-- Concrete rows for the TermFrequency witness. -/
def rowW2 : Row := [("w", Val.s "b")]

theorem term_frequency_spec_witness :
    ((tfCounts "w" (rowW1 :: [rowW2, rowW1])).map Prod.fst =
        firstSeen ((rowW1 :: [rowW2, rowW1]).map (fun r => r.get "w"))) ∧
    ((tfCounts "w" (rowW1 :: [rowW2, rowW1])).map Prod.fst).Nodup ∧
    (∀ v, v ∈ (tfCounts "w" (rowW1 :: [rowW2, rowW1])).map Prod.fst ↔
        v ∈ (rowW1 :: [rowW2, rowW1]).map (fun r => r.get "w")) ∧
    (termFrequency "w" "tf" [] (rowW1 :: [rowW2, rowW1])).length =
      (firstSeen ((rowW1 :: [rowW2, rowW1]).map (fun r => r.get "w"))).length ∧
    termFrequency "w" "tf" [] (rowW1 :: [rowW2, rowW1]) =
      (firstSeen ((rowW1 :: [rowW2, rowW1]).map (fun r => r.get "w"))).map (fun v =>
        Row.insert (Row.insert
            (([] : List String).foldl (fun (m : Row) k => Row.insert m k (rowW1.get k)) [])
            "w" v) "tf"
          (Val.q ((valCount v ((rowW1 :: [rowW2, rowW1]).map (fun r => r.get "w")) : ℚ) /
            (((rowW1 :: [rowW2, rowW1]) : List Row).length : ℚ)))) ∧
    (∀ row ∈ termFrequency "w" "tf" [] (rowW1 :: [rowW2, rowW1]),
      row.get "tf" = Val.q ((valCount (row.get "w")
          ((rowW1 :: [rowW2, rowW1]).map (fun r => r.get "w")) : ℚ) /
          (((rowW1 :: [rowW2, rowW1]) : List Row).length : ℚ)) ∧
      (∀ k ∈ ([] : List String), row.get k = rowW1.get k)) :=
  term_frequency_spec "w" "tf" [] rowW1 [rowW2, rowW1]
    (by decide) (by decide) (by decide)

/-! ### Split (`operations/map.py`)

`Split.__call__` walks the `re.finditer` matches of the separator over
`row[col]`, yielding a copy of the row with `col` replaced by the slice
between the previous match's end and the current match's start, and finally
the non-empty tail.  The regex engine is not modelled: `split` is
parametrised by the list of match spans `(start, end)` in order. -/

/-- Python string slice `t[i:j]` (by code points, as Python does). -/
def strSub (t : String) (i j : Nat) : String :=
  ((t.data.drop i).take (j - i)).asString

/-- The loop of `Split.__call__`: `prev` is the end of the previous match. -/
def splitAux (col : String) (text : String) (row : Row) :
    List (Nat × Nat) → Nat → List Row
  | [], prev =>
    if text.length ≠ prev then [row.insert col (Val.s (strSub text prev text.length))]
    else []
  | (s, e) :: ms, prev =>
    row.insert col (Val.s (strSub text prev s)) :: splitAux col text row ms e

/-- `Split.__call__` on a row whose `col` holds a string, given the separator
match spans.  Python raises `TypeError` on a non-string value; the claims
hypothesise a string. -/
def split (col : String) (ms : List (Nat × Nat)) (row : Row) : List Row :=
  let text := match row.get col with
    | Val.s t => t
    | _ => ""
  splitAux col text row ms 0

/-- End position of the last match (`prev` after the loop). -/
def lastEnd : List (Nat × Nat) → Nat → Nat
  | [], prev => prev
  | (_, e) :: ms, _ => lastEnd ms e

theorem splitAux_length (col : String) (text : String) (row : Row) :
    ∀ (ms : List (Nat × Nat)) (prev : Nat),
      (splitAux col text row ms prev).length =
        ms.length + (if lastEnd ms prev = text.length then 0 else 1) := by
  intro ms
  induction ms with
  | nil =>
    intro prev
    rw [splitAux, lastEnd]
    by_cases h : text.length = prev
    · rw [if_neg (by simpa using h), if_pos h.symm]
      rfl
    · rw [if_pos (by simpa using h), if_neg (fun hh => h hh.symm)]
      rfl
  | cons p ms ih =>
    intro prev
    rcases p with ⟨s, e⟩
    rw [splitAux, List.length_cons, ih, lastEnd]
    simp only [List.length_cons]
    omega

theorem splitAux_getLast (col : String) (text : String) (row : Row) :
    ∀ (ms : List (Nat × Nat)) (prev : Nat), lastEnd ms prev ≠ text.length →
      (splitAux col text row ms prev).getLast? =
        some (row.insert col (Val.s (strSub text (lastEnd ms prev) text.length))) := by
  intro ms
  induction ms with
  | nil =>
    intro prev h
    rw [lastEnd] at h ⊢
    rw [splitAux, if_pos (fun hh => h hh.symm)]
    rfl
  | cons p ms ih =>
    intro prev h
    rcases p with ⟨s, e⟩
    rw [lastEnd] at h ⊢
    rw [splitAux]
    have hrec := ih e h
    have hne : splitAux col text row ms e ≠ [] := by
      intro hnil
      rw [hnil] at hrec
      simp at hrec
    rw [List.getLast?_cons, hrec]
    simp [hne]

theorem splitAux_rows (col : String) (text : String) (row : Row) :
    ∀ (ms : List (Nat × Nat)) (prev : Nat), ∀ r' ∈ splitAux col text row ms prev,
      (∃ tk : String, r'.get col = Val.s tk) ∧
      (∀ k, k ≠ col → r'.get k = row.get k) := by
  intro ms
  induction ms with
  | nil =>
    intro prev r' hr'
    rw [splitAux] at hr'
    by_cases h : text.length ≠ prev
    · rw [if_pos h] at hr'
      rcases List.mem_singleton.mp hr' with rfl
      exact ⟨⟨_, Row.get_insert_self _ _ _⟩,
        fun k hk => Row.get_insert_other _ _ _ _ (fun he => hk he.symm)⟩
    · rw [if_neg h] at hr'
      simp at hr'
  | cons p ms ih =>
    intro prev r' hr'
    rcases p with ⟨s, e⟩
    rw [splitAux] at hr'
    rcases List.mem_cons.mp hr' with rfl | hr'
    · exact ⟨⟨_, Row.get_insert_self _ _ _⟩,
        fun k hk => Row.get_insert_other _ _ _ _ (fun he => hk he.symm)⟩
    · exact ih _ r' hr'

theorem strSub_full (t : String) : strSub t 0 t.length = t := by
  rw [strSub]
  rw [List.drop_zero, Nat.sub_zero]
  rw [show t.length = t.data.length from (String.length_data t).symm]
  rw [List.take_length]
  exact String.asString_toList t

theorem strSub_ne_empty (t : String) (p : Nat) (hp : p < t.length) :
    strSub t p t.length ≠ "" := by
  intro h
  have hlen : (strSub t p t.length).length = t.length - p := by
    rw [strSub, List.length_asString, List.length_take, List.length_drop,
      String.length_data]
    omega
  rw [h] at hlen
  have : ("" : String).length = 0 := rfl
  omega

/-- The C7 claim, as stated, fails at the empty string with no separator
matches: the claim requires exactly one row holding the full string, but the
code's final `if len(text) != prev` guard yields nothing. -/
theorem split_empty_string_counterexample :
    split "t" [] [("t", Val.s "")] = [] := rfl

/-- **C7 (amended).** For a row whose `col` holds a string: every yielded row
is a copy of the input with `col` replaced by a string token; one row is
yielded per separator match plus one more for a trailing non-empty tail; if
the matches consume the string exactly, no row is yielded for the remainder;
a non-empty string with no separator match yields exactly one row holding the
full string, while an empty string with no match yields no rows. -/
theorem split_spec (col : String) (ms : List (Nat × Nat)) (row : Row) (text : String)
    (htext : row.get col = Val.s text) (hwf : lastEnd ms 0 ≤ text.length) :
    (∀ r' ∈ split col ms row, (∃ tk : String, r'.get col = Val.s tk) ∧
        ∀ k, k ≠ col → r'.get k = row.get k) ∧
    (split col ms row).length =
      ms.length + (if lastEnd ms 0 = text.length then 0 else 1) ∧
    (lastEnd ms 0 ≠ text.length →
      (split col ms row).getLast? =
        some (row.insert col (Val.s (strSub text (lastEnd ms 0) text.length))) ∧
      strSub text (lastEnd ms 0) text.length ≠ "") ∧
    (ms = [] → text ≠ "" → split col ms row = [row.insert col (Val.s text)]) ∧
    (ms = [] → text = "" → split col ms row = []) := by
  have hsplit : split col ms row = splitAux col text row ms 0 := by
    rw [split, htext]
  refine ⟨?_, ?_, ?_, ?_, ?_⟩
  · rw [hsplit]
    exact splitAux_rows col text row ms 0
  · rw [hsplit]
    exact splitAux_length col text row ms 0
  · intro hne
    rw [hsplit]
    refine ⟨splitAux_getLast col text row ms 0 hne, ?_⟩
    exact strSub_ne_empty text (lastEnd ms 0) (lt_of_le_of_ne hwf hne)
  · intro hms htne
    subst hms
    rw [hsplit, splitAux]
    have hlen : text.length ≠ 0 := by
      intro h0
      apply htne
      have hdata : text.data.length = 0 := by rw [String.length_data, h0]
      have hdnil : text.data = [] := List.length_eq_zero.mp hdata
      rw [← String.asString_toList text]
      rw [show text.toList = text.data from rfl, hdnil]
      rfl
    rw [if_pos hlen, strSub_full]
  · intro hms hte
    subst hms
    subst hte
    rw [hsplit, splitAux]
    simp

/-- Concrete row for the Split witness. -/
def rowS1 : Row := [("t", Val.s "a b"), ("k", Val.i 1)]

theorem split_spec_witness :
    (∀ r' ∈ split "t" [(1, 2)] rowS1, (∃ tk : String, r'.get "t" = Val.s tk) ∧
        ∀ k, k ≠ "t" → r'.get k = rowS1.get k) ∧
    (split "t" [(1, 2)] rowS1).length =
      ([(1, 2)] : List (Nat × Nat)).length +
        (if lastEnd [(1, 2)] 0 = ("a b" : String).length then 0 else 1) ∧
    (lastEnd [(1, 2)] 0 ≠ ("a b" : String).length →
      (split "t" [(1, 2)] rowS1).getLast? =
        some (rowS1.insert "t" (Val.s (strSub "a b" (lastEnd [(1, 2)] 0)
          ("a b" : String).length))) ∧
      strSub "a b" (lastEnd [(1, 2)] 0) ("a b" : String).length ≠ "") ∧
    (([(1, 2)] : List (Nat × Nat)) = [] → ("a b" : String) ≠ "" →
      split "t" [(1, 2)] rowS1 = [rowS1.insert "t" (Val.s "a b")]) ∧
    (([(1, 2)] : List (Nat × Nat)) = [] → ("a b" : String) = "" →
      split "t" [(1, 2)] rowS1 = []) :=
  split_spec "t" [(1, 2)] rowS1 "a b" (by decide) (by decide)

/-! ### Mapper side effects (`operations/map.py`)

Python rows are mutable dict objects.  To settle whether a mapper modifies
the row object it is given, each mapper call is modelled as the pair
`(yielded rows, state of the passed row object after the call)`.
`FilterPunctuation.__call__` and `LowerCase.__call__` assign into the given
dict (`row[self.column] = ...`) and yield that same object; `Split.__call__`
executes `row = row.copy()` before mutating, leaving the input unchanged. -/

/-- Membership in Python `string.punctuation` (ASCII 33-47, 58-64, 91-96,
123-126). -/
def pythonPunct (c : Char) : Bool :=
  (33 ≤ c.toNat && c.toNat ≤ 47) || (58 ≤ c.toNat && c.toNat ≤ 64) ||
    (91 ≤ c.toNat && c.toNat ≤ 96) || (123 ≤ c.toNat && c.toNat ≤ 126)

/-- `regex.sub('', value)` for the punctuation class.  Python raises
`TypeError` on non-strings; the claims hypothesise a string. -/
def filterPunctVal : Val → Val
  | .s t => .s ((t.data.filter (fun c => !(pythonPunct c))).asString)
  | v => v

/-- `FilterPunctuation.__call__` as (yields, post-state of the given row). -/
def filterPunctuationCall (col : String) (row : Row) : List Row × Row :=
  let r := row.insert col (filterPunctVal (row.get col))
  ([r], r)

/-- `str.lower()`; ASCII lowering (`Char.toLower`) suffices for the claims. -/
def lowerVal : Val → Val
  | .s t => .s ((t.data.map Char.toLower).asString)
  | v => v

/-- `LowerCase.__call__` as (yields, post-state of the given row). -/
def lowerCaseCall (col : String) (row : Row) : List Row × Row :=
  let r := row.insert col (lowerVal (row.get col))
  ([r], r)

/-- `Split.__call__` as (yields, post-state of the given row): it copies
before mutating, so the given row is returned unchanged. -/
def splitCall (col : String) (ms : List (Nat × Nat)) (row : Row) : List Row × Row :=
  (split col ms row, row)

theorem Row.insert_eq_self_iff (r : Row) (k : String) (v : Val) :
    r.insert k v = r ↔ r.find? k = some v := by
  constructor
  · intro h
    have hf := Row.find?_insert_self r k v
    rw [h] at hf
    exact hf
  · exact Row.insert_of_find?_eq r k v

theorem map_eq_self_iff {α : Type} (f : α → α) (l : List α) :
    l.map f = l ↔ ∀ x ∈ l, f x = x := by
  induction l with
  | nil => simp
  | cons x xs ih => simp [ih]

/-- The C8 claim, as stated, fails at a concrete input: `FilterPunctuation`
assigns into the row object it is given, so after the call the passed row
maps the column to the filtered string, not the original one. -/
theorem filter_punctuation_mutates_counterexample :
    (filterPunctuationCall "text" [("text", Val.s "a!")]).2 ≠
      [("text", Val.s "a!")] := by decide

/-- **C8 (amended).** `FilterPunctuation` and `LowerCase` assign the
transformed value into the row object they are given and yield exactly that
object; the input row is left unchanged precisely when the transformation
fixes the column's value — for `FilterPunctuation` on a string, when the
string has no ASCII punctuation; for `LowerCase`, when every character is
already lower-cased.  Mappers that copy first, such as `Split`, leave the
given row unchanged. -/
theorem mapper_effect_spec (col : String) (row : Row) (t : String)
    (ht : row.find? col = some (Val.s t)) (ms : List (Nat × Nat)) :
    (filterPunctuationCall col row).1 = [(filterPunctuationCall col row).2] ∧
    ((filterPunctuationCall col row).2 = row ↔
      t.data.filter (fun c => !(pythonPunct c)) = t.data) ∧
    (lowerCaseCall col row).1 = [(lowerCaseCall col row).2] ∧
    ((lowerCaseCall col row).2 = row ↔ ∀ c ∈ t.data, c.toLower = c) ∧
    (splitCall col ms row).2 = row := by
  have hget : row.get col = Val.s t := by rw [Row.get, ht]; rfl
  refine ⟨rfl, ?_, rfl, ?_, rfl⟩
  · rw [filterPunctuationCall]
    show row.insert col (filterPunctVal (row.get col)) = row ↔ _
    rw [hget, Row.insert_eq_self_iff, ht]
    simp only [Option.some.injEq, filterPunctVal, Val.s.injEq]
    rw [eq_comm, List.asString_eq]
    exact Iff.rfl
  · rw [lowerCaseCall]
    show row.insert col (lowerVal (row.get col)) = row ↔ _
    rw [hget, Row.insert_eq_self_iff, ht]
    simp only [Option.some.injEq, lowerVal, Val.s.injEq]
    rw [eq_comm, List.asString_eq]
    exact map_eq_self_iff Char.toLower t.data

theorem mapper_effect_spec_witness :
    (filterPunctuationCall "text" [("text", Val.s "ab")]).1 =
        [(filterPunctuationCall "text" [("text", Val.s "ab")]).2] ∧
    ((filterPunctuationCall "text" [("text", Val.s "ab")]).2 =
        [("text", Val.s "ab")] ↔
      ("ab" : String).data.filter (fun c => !(pythonPunct c)) = ("ab" : String).data) ∧
    (lowerCaseCall "text" [("text", Val.s "ab")]).1 =
        [(lowerCaseCall "text" [("text", Val.s "ab")]).2] ∧
    ((lowerCaseCall "text" [("text", Val.s "ab")]).2 = [("text", Val.s "ab")] ↔
      ∀ c ∈ ("ab" : String).data, c.toLower = c) ∧
    (splitCall "text" [] [("text", Val.s "ab")]).2 = [("text", Val.s "ab")] :=
  mapper_effect_spec "text" [("text", Val.s "ab")] "ab" (by decide) []

/-! ### Graph builder and runner (`graph.py`, `operations/read.py`)

A `Graph` node holds an operation, an optional upstream (`_prev`) and an
optional join side (`_next`).  `Graph.run` dispatches on the operation kind
and asserts the node shape; `ReadIterFactory.__call__` looks the source name
up in the keyword arguments — a `KeyError` when absent.  Both `run` and the
operator calls are Python generators, so these errors surface only when the
output stream is consumed; the builder functions are plain constructors and
never inspect the inputs, which the model reflects by making them total and
all errors values of `Graph.run`. -/

inductive GOp : Type
  | readIter (name : String)
  | unaryOp (f : List Row → List Row)
  | joinOp (f : List Row → List Row → List Row)

inductive Graph : Type
  | mk (op : GOp) (prev : Option Graph) (side : Option Graph)

inductive GError : Type
  | missingInput (name : String)
  | graphStructure (msg : String)
deriving DecidableEq, Repr

/-- `Graph.run`, with the assertion messages of `graph.py`. -/
def Graph.run (inputs : String → Option (List Row)) : Graph → Except GError (List Row)
  | .mk (.readIter name) none none =>
    match inputs name with
    | some rows => .ok rows
    | none => .error (.missingInput name)
  | .mk (.readIter _) _ _ =>
    .error (.graphStructure "Static init should not have pre info")
  | .mk (.joinOp f) (some p) (some s) => do
    let ra ← Graph.run inputs p
    let rb ← Graph.run inputs s
    .ok (f ra rb)
  | .mk (.joinOp _) _ _ =>
    .error (.graphStructure "Both vals to join are not nulls")
  | .mk (.unaryOp f) (some p) none => do
    let r ← Graph.run inputs p
    .ok (f r)
  | .mk (.unaryOp _) _ _ =>
    .error (.graphStructure "For map/reduce/sort need only first param")

/-- `Graph.graph_from_iter`: a source node with no upstream and no side. -/
def graphFromIter (name : String) : Graph := .mk (.readIter name) none none

/-- `Graph.map` / `Graph.reduce` / `Graph.sort`: wrap a unary operation
around an upstream graph. -/
def Graph.mapNode (g : Graph) (f : List Row → List Row) : Graph :=
  .mk (.unaryOp f) (some g) none

/-- A pipeline of unary builder calls over a base graph. -/
def chainGraph (fs : List (List Row → List Row)) (g : Graph) : Graph :=
  fs.foldl Graph.mapNode g

theorem chainGraph_error (inputs : String → Option (List Row)) (e : GError) :
    ∀ (fs : List (List Row → List Row)) (g : Graph),
      g.run inputs = .error e → (chainGraph fs g).run inputs = .error e := by
  intro fs
  induction fs with
  | nil => intro g hg; exact hg
  | cons f fs ih =>
    intro g hg
    refine ih (g.mapNode f) ?_
    rw [Graph.mapNode, Graph.run, hg]
    rfl

/-- **C9.** Running a pipeline whose root source is `from_iter(name)` with an
inputs mapping lacking `name` yields the missing-input error (the `KeyError`
of `kwargs[self.name]`), surfaced from `run` rather than at graph
construction (the builders are total constructors); a Join node whose other
side is absent yields the graph-structure assertion error at run time. -/
theorem graph_run_errors_spec (name : String) (fs : List (List Row → List Row))
    (inputs : String → Option (List Row)) (hmiss : inputs name = none)
    (jf : List Row → List Row → List Row) (p : Graph) :
    (chainGraph fs (graphFromIter name)).run inputs =
        .error (.missingInput name) ∧
    (Graph.mk (.joinOp jf) (some p) none).run inputs =
        .error (.graphStructure "Both vals to join are not nulls") ∧
    (Graph.mk (.joinOp jf) none (some p)).run inputs =
        .error (.graphStructure "Both vals to join are not nulls") := by
  refine ⟨?_, ?_, ?_⟩
  · refine chainGraph_error inputs _ fs (graphFromIter name) ?_
    rw [graphFromIter, Graph.run, hmiss]
  · rw [Graph.run]
    intro p1 s h1 h2
    cases h2
  · rw [Graph.run]
    intro p1 s h1 h2
    cases h1

theorem graph_run_errors_spec_witness :
    (chainGraph [] (graphFromIter "input")).run (fun _ => none) =
        .error (.missingInput "input") ∧
    (Graph.mk (.joinOp (fun a _ => a)) (some (graphFromIter "x")) none).run
        (fun _ => none) =
        .error (.graphStructure "Both vals to join are not nulls") ∧
    (Graph.mk (.joinOp (fun a _ => a)) none (some (graphFromIter "x"))).run
        (fun _ => none) =
        .error (.graphStructure "Both vals to join are not nulls") :=
  graph_run_errors_spec "input" [] (fun _ => none) rfl (fun a _ => a)
    (graphFromIter "x")

end CompGraph
